import Mathlib

/-!
Verification development for the NumIO C++ library (`numio.hpp`): a shallow
embedding in Lean 4 of the integer codec `NumIO::IntIO` and the generic
floating-point codec `NumIO::FloatIO`, together with theorems settling the
frozen claims about the specification.

Modelling conventions:
* A C++ byte vector `std::vector<std::uint8_t>` is a `List Nat` whose
  in-range entries are `< 256` (hypotheses state this where needed);
  `bytes[i]` is `byteAt`, an access with default `0`.
* Container values of the integer type `INT_T` are modelled by their
  two's-complement bit pattern, a `Nat` below `2 ^ containerBits`; the
  signed reinterpretation at the API boundary is `toSigned`.  After
  `value &= _VALUE_MASK` the C++ arithmetic right shift followed by
  `& 0xFF` extracts exactly the bytes of that bit pattern, which is how
  `pack`'s byte extraction is rendered.
* The compile-time constant `__IS_SYSTEM_LITTLE_ENDIAN` is the `host`
  parameter.
* `FloatIO::pack`'s floating-point intermediate steps are exact for every
  configuration the library instantiates (the target fraction width never
  exceeds the mantissa width of `FLOAT_T`, and every scale factor is a
  power of two), so they are modelled with exact rational arithmetic; the
  `std::frexp` decomposition of a finite nonzero input is primitive in the
  model (the `finite` constructor carries its normalized output).
-/

/-- Endian modes `NumIO::Endian`.  `NATIVE` and `NETWORK` are value aliases
of `LITTLE`/`BIG` in the C++ enum and therefore collapse onto these two
constructors. -/
inductive Endian where
  | LITTLE : Endian
  | BIG : Endian
deriving DecidableEq, Repr

/-- Static configuration of one `IntIO<INT_T, N_BITS, ALIGNED_V>` instance:
`containerBits` is `_N_CONTAINER_BITS` (the bit width of `INT_T`), `signed`
is `std::is_signed_v<INT_T>`, `nBits` is `N_BITS`, `aligned` is `ALIGNED_V`. -/
structure IntCfg where
  containerBits : Nat
  signed : Bool
  nBits : Nat
  aligned : Bool
deriving DecidableEq, Repr

namespace IntCodec

/-- Validity enforced by the C++ template machinery: `INT_T` is one of the
8/16/32/64-bit integer types (so its width is a positive multiple of 8) and
the `static_assert` `_N_CONTAINER_BITS >= N_BITS` holds; `N_BITS` is at
least 1. -/
def Valid (c : IntCfg) : Prop :=
  0 < c.containerBits ∧ c.containerBits % 8 = 0 ∧
    1 ≤ c.nBits ∧ c.nBits ≤ c.containerBits

instance (c : IntCfg) : Decidable (Valid c) := by
  unfold Valid; infer_instance

/-- `_N_DATA_BYTES = __positive_ceil(N_BITS / 8.0)`; the float ceiling is
exact for the widths at hand, namely `⌈nBits / 8⌉`. -/
def dataBytes (c : IntCfg) : Nat := (c.nBits + 7) / 8

/-- `_N_ALIGN_BYTES`: zero when `N_BITS ≤ 8` or unaligned, otherwise
`(_N_CONTAINER_BITS - N_BITS) / 8`. -/
def alignBytes (c : IntCfg) : Nat :=
  if 8 < c.nBits then
    if c.aligned then (c.containerBits - c.nBits) / 8 else 0
  else 0

/-- `N_IO_BYTES = _N_DATA_BYTES + _N_ALIGN_BYTES`. -/
def ioBytes (c : IntCfg) : Nat := dataBytes c + alignBytes c

/-- `_VALUE_MASK` (as the bit pattern of the `INT_T` constant): all ones
over the container when `N_BITS` fills it, otherwise the low `N_BITS`
ones. -/
def valueMask (c : IntCfg) : Nat :=
  if c.containerBits = c.nBits then 2 ^ c.containerBits - 1
  else 2 ^ c.nBits - 1

/-- `_get_endianness_offset`: `(endianness == Endian::BIG) ^
!__IS_SYSTEM_LITTLE_ENDIAN ? N_IO_BYTES - 1 : 0`. -/
def endianOffset (c : IntCfg) (e : Endian) (host : Bool) : Nat :=
  if xor (e = Endian.BIG) (!host = true) then ioBytes c - 1 else 0

/-- `bytes[i]` on the modelled byte vector. -/
def byteAt (bs : List Nat) (i : Nat) : Nat := bs.getD i 0

/-- The accumulation loop of `unpack`:
`for i in [0, n) : result |= f i << (i * 8)`. -/
def readAcc (f : Nat → Nat) : Nat → Nat
  | 0 => 0
  | n + 1 => readAcc f n ||| (f n <<< (8 * n))

/-- The write loop of `pack`: `for i in [0, n) : bytes[idx i] = f i`. -/
def writeLoop (idx f : Nat → Nat) : Nat → List Nat → List Nat
  | 0, bs => bs
  | n + 1, bs => (writeLoop idx f n bs).set (idx n) (f n)

/-- Reinterpret a `w`-bit pattern as the value of a signed container. -/
def toSigned (w : Nat) (p : Nat) : Int :=
  if p < 2 ^ (w - 1) then (p : Int) else (p : Int) - 2 ^ w

/-- The byte-accumulation phase of `IntIO::unpack`: the two copy loops,
reversed order (`bytes[endianness_offset - i + offset]`) when the
endianness offset is nonzero, forward order (`bytes[i + offset]`)
otherwise. -/
def unpackAcc (c : IntCfg) (e : Endian) (host : Bool)
    (bs : List Nat) (offset : Nat) : Nat :=
  let eo := endianOffset c e host
  if eo ≠ 0 then
    readAcc (fun i => byteAt bs (eo - i + offset)) (dataBytes c)
  else
    readAcc (fun i => byteAt bs (i + offset)) (dataBytes c)

/-- The value of `result` (as a bit pattern) at the end of
`IntIO::unpack`: when `N_BITS != _N_CONTAINER_BITS` the accumulator is
masked with `_VALUE_MASK` and, for signed containers, sign-extended with
`result |= ~_VALUE_MASK` when the sign bit of the most significant data
byte (`bytes[MSB + offset] & SIGN_BIT_MASK`, with
`SIGN_BIT_MASK = 1 << ((N_BITS % 8) + 7) % 8`) is set. -/
def unpackPattern (c : IntCfg) (e : Endian) (host : Bool)
    (bs : List Nat) (offset : Nat) : Nat :=
  let eo := endianOffset c e host
  let acc := unpackAcc c e host bs offset
  if c.nBits ≠ c.containerBits then
    let m := acc &&& valueMask c
    if c.signed then
      let msb := if eo ≠ 0 then alignBytes c else dataBytes c - 1
      let signBitMask := 1 <<< ((c.nBits % 8 + 7) % 8)
      if byteAt bs (msb + offset) &&& signBitMask ≠ 0 then
        m ||| ((2 ^ c.containerBits - 1) ^^^ valueMask c)
      else m
    else m
  else acc

/-- `IntIO::unpack(bytes, offset)` (the `std::uint8_t` overload; the
`std::int8_t` overload forwards to it): the final `result`, reinterpreted
through the signedness of `INT_T`. -/
def unpack (c : IntCfg) (e : Endian) (host : Bool)
    (bs : List Nat) (offset : Nat) : Int :=
  if c.signed then toSigned c.containerBits (unpackPattern c e host bs offset)
  else (unpackPattern c e host bs offset : Int)

/-- The bit pattern of `value` after `value &= _VALUE_MASK` in
`IntIO::pack`. -/
def packedPattern (c : IntCfg) (v : Int) : Nat :=
  (v % (2 ^ c.containerBits : Int)).toNat &&& valueMask c

/-- `IntIO::pack(value, bytes)`.  `bytes.resize(offset + N_IO_BYTES)`
zero-fills the appended region; then the masked value's bytes
`(value >> (i*8)) & 0xFF` are stored at index `endianness_offset - i`
(reversed order, `_N_DATA_BYTES` iterations) or at index `i`
(`N_IO_BYTES` iterations).  The C++ write loops index the vector without
adding `offset`, and so does this model. -/
def pack (c : IntCfg) (e : Endian) (host : Bool)
    (v : Int) (bs : List Nat) : List Nat :=
  let bs1 := bs ++ List.replicate (ioBytes c) 0
  let m := packedPattern c v
  let eo := endianOffset c e host
  if eo ≠ 0 then
    writeLoop (fun i => eo - i) (fun i => (m >>> (8 * i)) &&& 255)
      (dataBytes c) bs1
  else
    writeLoop (fun i => i) (fun i => (m >>> (8 * i)) &&& 255)
      (ioBytes c) bs1

/-- The set of container values representable in `N_BITS`:
the two's-complement range for signed containers, `[0, 2 ^ N_BITS)` for
unsigned ones. -/
def Representable (c : IntCfg) (v : Int) : Prop :=
  if c.signed then -(2 ^ (c.nBits - 1) : Int) ≤ v ∧ v < 2 ^ (c.nBits - 1)
  else 0 ≤ v ∧ v < 2 ^ c.nBits

instance (c : IntCfg) (v : Int) : Decidable (Representable c v) := by
  unfold Representable; infer_instance

/-- The physical window `[offset, offset + N_IO_BYTES)` of a byte vector
with all bits outside the `N_BITS` value region forced to zero: padding
bytes become `0` and the most significant data byte keeps only the bits of
`_VALUE_MASK` that fall into it.  Entries outside the window are kept. -/
def zeroGarbage (c : IntCfg) (e : Endian) (host : Bool)
    (bs : List Nat) (offset : Nat) : List Nat :=
  (List.range bs.length).map (fun j =>
    if offset ≤ j ∧ j < offset + ioBytes c then
      let i := if endianOffset c e host ≠ 0 then
          endianOffset c e host - (j - offset)
        else j - offset
      if i < dataBytes c then
        byteAt bs j &&& ((valueMask c >>> (8 * i)) &&& 255)
      else 0
    else byteAt bs j)

/-- The vector index read by `unpack`'s copy loop in iteration `i`:
`endianness_offset - i + offset` in reversed order, `i + offset` in
forward order. -/
def readPos (c : IntCfg) (e : Endian) (host : Bool) (offset i : Nat) : Nat :=
  if endianOffset c e host ≠ 0 then endianOffset c e host - i + offset
  else i + offset

/-- The interpretation of the low `N_BITS` of `value` that `unpack`
reconstructs: the `N_BITS`-bit two's-complement reading
(sign extension) for a signed container, the plain residue
`value mod 2^N_BITS` (zero extension) for an unsigned one. -/
def extendValue (c : IntCfg) (v : Int) : Int :=
  if c.signed then toSigned c.nBits ((v % (2 ^ c.nBits : Int)).toNat)
  else v % (2 ^ c.nBits : Int)

/-- The `data_bytes`-byte region of one packed unit, excluding the
padding bytes: padding trails the data in forward byte order and leads it
in reversed byte order. -/
def dataRegion (c : IntCfg) (e : Endian) (host : Bool)
    (bs : List Nat) : List Nat :=
  if endianOffset c e host ≠ 0 then
    (bs.drop (alignBytes c)).take (dataBytes c)
  else bs.take (dataBytes c)

end IntCodec

/-- Static configuration of one
`FloatIO<FLOAT_T, INT_IO_T, N_BITS_EXPONENT, N_BITS_FRACTION, ALIGNED_V>`
instance, restricted to the two template parameters the bit-level packing
algorithm depends on. -/
structure FloatCfg where
  nBitsExponent : Nat
  nBitsFraction : Nat
deriving DecidableEq, Repr

/-- The classification of a `FLOAT_T` input value, i.e. the case analysis
`std::isinf` / `std::isnan` / `value == 0.0` / finite nonzero performed at
the top of `FloatIO::pack`.  A finite nonzero value is carried in the
normalized form `(-1)^sign * m * 2^e` with `1 ≤ m < 2` produced by
`std::frexp` followed by `fraction *= 2; exponent -= 1`. -/
inductive FloatVal where
  | inf : Bool → FloatVal
  | nan : FloatVal
  | zero : Bool → FloatVal
  | finite : Bool → ℚ → ℤ → FloatVal
deriving DecidableEq

/-- The three `std::runtime_error` throw sites of `FloatIO::pack`:
the `frexp()` range check, the two "too large to be packed" overflow
throws (one same error value), and the dead "invalid or unsupported
scenario" branch. -/
inductive PackErr where
  | frexpRange : PackErr
  | tooLarge : PackErr
  | invalidScenario : PackErr
deriving DecidableEq, Repr

namespace FloatCodec

/-- `FloatIO` validity: at least two exponent bits (so that the normal
range `EXPONENT_MIN ≤ EXPONENT_MAX` is nonempty, as in every preset the
library ships) and at least one fraction bit, with the exponent fitting
comfortably in the C++ `int` used for exponent arithmetic (the source
notes no format comes close to 32 exponent bits). -/
def Valid (c : FloatCfg) : Prop :=
  2 ≤ c.nBitsExponent ∧ c.nBitsExponent ≤ 30 ∧ 1 ≤ c.nBitsFraction

instance (c : FloatCfg) : Decidable (Valid c) := by
  unfold Valid; infer_instance

/-- `EXPONENT_MASK = (1 << N_BITS_EXPONENT) - 1`. -/
def exponentMask (c : FloatCfg) : Nat := 2 ^ c.nBitsExponent - 1

/-- `FRACTION_MASK = (1 << N_BITS_FRACTION) - 1`. -/
def fractionMask (c : FloatCfg) : Nat := 2 ^ c.nBitsFraction - 1

/-- `EXPONENT_BIAS = (1 << (N_BITS_EXPONENT - 1)) - 1`. -/
def exponentBias (c : FloatCfg) : Int := 2 ^ (c.nBitsExponent - 1) - 1

/-- `FRACTION_DENOMINATOR = FRACTION_MASK + 1`. -/
def fractionDenominator (c : FloatCfg) : Nat := fractionMask c + 1

/-- `EXPONENT_MAX = EXPONENT_BIAS`. -/
def exponentMax (c : FloatCfg) : Int := exponentBias c

/-- `EXPONENT_MIN = -EXPONENT_BIAS + 1`. -/
def exponentMin (c : FloatCfg) : Int := -exponentBias c + 1

/-- `MIN_VAL_EXPONENT_NORMALIZED = EXPONENT_MIN - N_BITS_FRACTION - 1`. -/
def minValExponentNormalized (c : FloatCfg) : Int :=
  exponentMin c - c.nBitsFraction - 1

/-- C++ `static_cast<INT_IO_T>` of a nonnegative-or-negative rational:
truncation toward zero. -/
def ratTrunc (q : ℚ) : Int := if 0 ≤ q then ⌊q⌋ else -⌊-q⌋

/-- Assembly of `binary_data`:
`(sign << (E+F)) | ((exponent & EXPONENT_MASK) << F) |
(fraction_numerator & FRACTION_MASK)`.  `exponent` is a C++ 32-bit `int`,
so `exponent & EXPONENT_MASK` acts on its two's-complement pattern
`exponent mod 2^32`. -/
def assembleBits (c : FloatCfg) (sign : Nat) (exponent : Int)
    (fracNumerator : Nat) : Nat :=
  (sign <<< (c.nBitsExponent + c.nBitsFraction)) |||
    (((exponent % (2 ^ 32 : Int)).toNat &&& exponentMask c)
      <<< c.nBitsFraction) |||
    (fracNumerator &&& fractionMask c)

/-- The fraction-extraction and round-to-even tail of `FloatIO::pack`
(from `fraction *= FRACTION_DENOMINATOR` to the assembly of
`binary_data`): truncate, conditionally increment, carry an overflowing
fraction into the exponent, and throw the overflow error when the carried
exponent reaches `EXPONENT_MASK`. -/
def fractionRound (c : FloatCfg) (sign : Nat) (fraction : ℚ)
    (exponent : Int) : Except PackErr Nat :=
  let fraction := fraction * (fractionDenominator c : ℚ)
  let fn : Int := ratTrunc fraction
  if 1/2 < fraction - fn ∨ (fraction - fn = 1/2 ∧ fn % 2 = 1) then
    let fn := fn + 1
    if fn = (fractionDenominator c : Int) then
      let exponent := exponent + 1
      if (exponentMask c : Int) ≤ exponent then Except.error .tooLarge
      else Except.ok (assembleBits c sign exponent 0)
    else Except.ok (assembleBits c sign exponent fn.toNat)
  else Except.ok (assembleBits c sign exponent fn.toNat)

/-- `FloatIO::pack`, producing `binary_data` (the value handed to the
integer codec) or the raised error.  Special values are classified before
any decomposition; a finite nonzero input enters the `frexp` pipeline.
The model's `finite s m e` carries the already-normalized pair, so
`frexp`'s raw outputs are recovered as `(m / 2, e + 1)` and the source's
`fraction *= 2.0; exponent -= 1` restores `(m, e)`. -/
def packBits (c : FloatCfg) : FloatVal → Except PackErr Nat
  | .inf s =>
      Except.ok (assembleBits c (if s then 1 else 0) (exponentMask c : Int) 0)
  | .nan =>
      Except.ok (assembleBits c 0 (exponentMask c : Int)
        (fractionDenominator c >>> 1))
  | .zero s =>
      Except.ok (assembleBits c (if s then 1 else 0) 0 0)
  | .finite s m e =>
      let sign : Nat := if s then 1 else 0
      let fraction : ℚ := m / 2
      let exponent : Int := e + 1
      if fraction < 1/2 ∨ 1 ≤ fraction then Except.error .frexpRange
      else
        let fraction := fraction * 2
        let exponent := exponent - 1
        if exponentMax c < exponent then Except.error .tooLarge
        else if exponent < minValExponentNormalized c then
          fractionRound c sign 0 0
        else if exponent < exponentMin c then
          fractionRound c sign (fraction * 2 ^ (-(exponentMin c) + exponent)) 0
        else if ¬(exponent = 0 ∧ fraction = 0) then
          fractionRound c sign (fraction - 1) (exponent + exponentBias c)
        else Except.error .invalidScenario

/-- Field extraction from `binary_data`, as in `FloatIO::unpack`:
the exponent field `(binary_data >> N_BITS_FRACTION) & EXPONENT_MASK`. -/
def expField (c : FloatCfg) (b : Nat) : Nat :=
  (b >>> c.nBitsFraction) &&& exponentMask c

/-- The fraction field `binary_data & FRACTION_MASK`. -/
def fracField (c : FloatCfg) (b : Nat) : Nat := b &&& fractionMask c

/-- The sign bit `(binary_data >> (N_BITS_FRACTION + N_BITS_EXPONENT)) & 1`. -/
def signField (c : FloatCfg) (b : Nat) : Nat :=
  (b >>> (c.nBitsFraction + c.nBitsExponent)) &&& 1

/-- Round-to-nearest, ties-to-even, as the specification words it:
truncate to an integer, then increment exactly when the fractional
remainder exceeds one half, or equals one half with the truncation odd.
Stated with `⌊·⌋`, which agrees with truncation on the nonnegative inputs
the algorithm feeds it. -/
def specRoundNearestEven (x : ℚ) : Int :=
  if 1/2 < x - ⌊x⌋ ∨ (x - ⌊x⌋ = 1/2 ∧ ⌊x⌋ % 2 = 1) then ⌊x⌋ + 1 else ⌊x⌋

end FloatCodec

deriving instance DecidableEq for Except

/-- `IntIO<std::int32_t, 24, true>` from the test program. -/
def i24aCfg : IntCfg := ⟨32, true, 24, true⟩

/-- `IntIO<std::uint8_t>` (8-bit unsigned, unaligned default). -/
def u8Cfg : IntCfg := ⟨8, false, 8, false⟩

/-- A small float layout (3 exponent bits, 2 fraction bits) used for
concrete counterexamples and witnesses. -/
def tinyFloatCfg : FloatCfg := ⟨3, 2⟩

/-- The IEEE single-precision layout `FloatIO<float, std::uint32_t>`. -/
def f32Cfg : FloatCfg := ⟨8, 23⟩

namespace IntCodec

/-! ### Arithmetic facts about the derived layout constants -/

theorem dataBytes_pos (c : IntCfg) (hc : Valid c) : 1 ≤ dataBytes c := by
  obtain ⟨_, _, h1, _⟩ := hc
  unfold dataBytes
  omega

theorem nBits_le_eight_mul_dataBytes (c : IntCfg) : c.nBits ≤ 8 * dataBytes c := by
  unfold dataBytes
  omega

theorem eight_mul_ioBytes_le (c : IntCfg) (hc : Valid c) :
    8 * ioBytes c ≤ c.containerBits := by
  obtain ⟨h0, h8, h1, h2⟩ := hc
  unfold ioBytes dataBytes alignBytes
  by_cases hgt : 8 < c.nBits
  · by_cases ha : c.aligned
    · simp only [if_pos hgt, if_pos ha]
      omega
    · simp only [if_pos hgt, if_neg ha]
      omega
  · simp only [if_neg hgt]
    omega

theorem valueMask_eq (c : IntCfg) : valueMask c = 2 ^ c.nBits - 1 := by
  unfold valueMask
  by_cases h : c.containerBits = c.nBits <;> simp [h]

theorem endianOffset_eq_zero_or (c : IntCfg) (e : Endian) (host : Bool) :
    endianOffset c e host = 0 ∨ endianOffset c e host = ioBytes c - 1 := by
  unfold endianOffset
  split
  · right; rfl
  · left; rfl

/-- The position of the top value bit inside its byte:
`8 * (_N_DATA_BYTES - 1) + SIGN_BIT_MASK's shift = N_BITS - 1`. -/
theorem sign_bit_position (c : IntCfg) (hc : Valid c) :
    8 * (dataBytes c - 1) + (c.nBits % 8 + 7) % 8 = c.nBits - 1 := by
  obtain ⟨_, _, h1, _⟩ := hc
  unfold dataBytes
  omega

/-! ### The read-accumulation loop -/

theorem readAcc_congr {f g : Nat → Nat} (n : Nat) (h : ∀ i, i < n → f i = g i) :
    readAcc f n = readAcc g n := by
  induction n with
  | zero => rfl
  | succ n ih =>
    unfold readAcc
    rw [ih (fun i hi => h i (by omega)), h n (by omega)]

theorem readAcc_testBit (f : Nat → Nat) (hf : ∀ i, f i < 256) (n k : Nat) :
    (readAcc f n).testBit k =
      (decide (k < 8 * n) && (f (k / 8)).testBit (k % 8)) := by
  induction n with
  | zero => simp [readAcc]
  | succ n ih =>
    simp only [readAcc, Nat.testBit_lor, ih, Nat.testBit_shiftLeft]
    by_cases h1 : k < 8 * n
    · have h2 : ¬ (8 * n ≤ k) := by omega
      have h3 : k < 8 * (n + 1) := by omega
      simp [h1, h2, h3]
    · by_cases h3 : k < 8 * (n + 1)
      · have h4 : 8 * n ≤ k := by omega
        have hk8 : k / 8 = n := by omega
        have hk8' : k % 8 = k - 8 * n := by omega
        simp [h1, h3, h4, hk8, hk8']
      · have hb : (f n).testBit (k - 8 * n) = false := by
          apply Nat.testBit_lt_two_pow
          calc f n < 256 := hf n
            _ = 2 ^ 8 := by norm_num
            _ ≤ 2 ^ (k - 8 * n) := Nat.pow_le_pow_right (by norm_num) (by omega)
        by_cases h4 : 8 * n ≤ k <;> simp [h1, h3, h4, hb]

theorem readAcc_lt (f : Nat → Nat) (hf : ∀ i, f i < 256) (n : Nat) :
    readAcc f n < 2 ^ (8 * n) := by
  apply Nat.lt_pow_two_of_testBit
  intro i hi
  rw [readAcc_testBit f hf n i]
  simp [show ¬ (i < 8 * n) by omega]

/-- Reassembling the little-endian bytes of `m` recovers `m % 2 ^ (8 n)`. -/
theorem readAcc_bytes (m n : Nat) :
    readAcc (fun i => (m >>> (8 * i)) &&& 255) n = m % 2 ^ (8 * n) := by
  apply Nat.eq_of_testBit_eq
  intro k
  rw [readAcc_testBit _ (fun i => by
        have := Nat.and_le_right (n := m >>> (8 * i)) (m := 255); omega) n k,
    Nat.testBit_mod_two_pow]
  by_cases h : k < 8 * n
  · rw [decide_eq_true h]
    simp only [Bool.true_and]
    rw [Nat.testBit_land, Nat.testBit_shiftRight]
    have h8 : 8 * (k / 8) + k % 8 = k := by omega
    rw [h8]
    have h255 : Nat.testBit 255 (k % 8) = true := by
      have : (255 : Nat) = 2 ^ 8 - 1 := by norm_num
      rw [this, Nat.testBit_two_pow_sub_one]
      simp [Nat.mod_lt k (by norm_num : 0 < 8)]
    simp [h255]
  · simp [h]

/-! ### The write loop -/

theorem writeLoop_length (idx f : Nat → Nat) (n : Nat) (bs : List Nat) :
    (writeLoop idx f n bs).length = bs.length := by
  induction n with
  | zero => rfl
  | succ n ih => unfold writeLoop; rw [List.length_set, ih]

theorem byteAt_set (bs : List Nat) (i j v : Nat) :
    byteAt (bs.set i v) j =
      if i = j ∧ i < bs.length then v else byteAt bs j := by
  unfold byteAt
  by_cases hij : i = j
  · subst hij
    by_cases hlen : i < bs.length
    · simp [List.getD_eq_getElem?_getD, List.getElem?_set_eq_of_lt v hlen, hlen]
    · rw [List.set_eq_of_length_le (by omega)]
      simp [hlen]
  · simp [List.getD_eq_getElem?_getD, List.getElem?_set_ne (by omega : i ≠ j), hij]

theorem byteAt_writeLoop_fwd (f : Nat → Nat) (n : Nat) (bs : List Nat)
    (hn : n ≤ bs.length) (k : Nat) :
    byteAt (writeLoop (fun i => i) f n bs) k =
      if k < n then f k else byteAt bs k := by
  induction n with
  | zero => simp [writeLoop]
  | succ n ih =>
    unfold writeLoop
    rw [byteAt_set, writeLoop_length, ih (by omega)]
    by_cases hk : n = k
    · subst hk
      simp [show n < bs.length by omega, show ¬ (n < n) by omega]
    · by_cases hlt : k < n
      · simp [hk, hlt, show k < n + 1 by omega]
      · simp [hk, hlt, show ¬ (k < n + 1) by omega]

theorem byteAt_writeLoop_rev (f : Nat → Nat) (eo n : Nat) (bs : List Nat)
    (hn : n ≤ eo + 1) (heo : eo < bs.length) (k : Nat) :
    byteAt (writeLoop (fun i => eo - i) f n bs) k =
      if eo + 1 - n ≤ k ∧ k ≤ eo then f (eo - k) else byteAt bs k := by
  induction n with
  | zero => simp [writeLoop, show ¬ (eo + 1 ≤ k ∧ k ≤ eo) by omega]
  | succ n ih =>
    unfold writeLoop
    rw [byteAt_set, writeLoop_length, ih (by omega)]
    by_cases hk : eo - n = k
    · rw [if_pos ⟨hk, by omega⟩,
        if_pos (show eo + 1 - (n + 1) ≤ k ∧ k ≤ eo by omega)]
      have hkn : eo - k = n := by omega
      rw [hkn]
    · rw [if_neg (fun h => hk h.1)]
      by_cases hin : eo + 1 - n ≤ k ∧ k ≤ eo
      · rw [if_pos hin, if_pos (show eo + 1 - (n + 1) ≤ k ∧ k ≤ eo by omega)]
      · rw [if_neg hin, if_neg (show ¬ (eo + 1 - (n + 1) ≤ k ∧ k ≤ eo) by omega)]

end IntCodec

namespace IntCodec

/-! ### The masked pattern -/

theorem toNat_mod_natCast (x : Int) (hx : 0 ≤ x) (k : Nat) :
    x.toNat % k = (x % (k : Int)).toNat := by
  have h : ((x.toNat % k : Nat) : Int) = x % (k : Int) := by
    push_cast
    rw [Int.toNat_of_nonneg hx]
  rw [← Int.toNat_natCast (x.toNat % k), h]

theorem packedPattern_eq (c : IntCfg) (hn : c.nBits ≤ c.containerBits)
    (v : Int) : packedPattern c v = (v % (2 ^ c.nBits : Int)).toNat := by
  unfold packedPattern
  rw [valueMask_eq, Nat.and_pow_two_sub_one_eq_mod,
    toNat_mod_natCast _ (Int.emod_nonneg v (by positivity)) _]
  congr 1
  push_cast
  exact Int.emod_emod_of_dvd v (pow_dvd_pow 2 hn)

theorem packedPattern_lt (c : IntCfg) (hn : c.nBits ≤ c.containerBits)
    (v : Int) : packedPattern c v < 2 ^ c.nBits := by
  rw [packedPattern_eq c hn v]
  have h1 : v % (2 ^ c.nBits : Int) < (2 ^ c.nBits : Int) :=
    Int.emod_lt_of_pos v (by positivity)
  have h2 : ((2 ^ c.nBits : Int)).toNat = 2 ^ c.nBits := by
    rw [← Int.toNat_natCast (2 ^ c.nBits)]
    norm_num
  omega

theorem packedPattern_of_nonneg (c : IntCfg) (hn : c.nBits ≤ c.containerBits)
    (v : Int) (h0 : 0 ≤ v) (h1 : v < 2 ^ c.nBits) :
    packedPattern c v = v.toNat := by
  rw [packedPattern_eq c hn v, Int.emod_eq_of_lt h0 (by exact_mod_cast h1)]

theorem packedPattern_of_neg (c : IntCfg) (hn : c.nBits ≤ c.containerBits)
    (v : Int) (h0 : -(2 ^ c.nBits : Int) ≤ v) (h1 : v < 0) :
    packedPattern c v = (v + 2 ^ c.nBits).toNat := by
  rw [packedPattern_eq c hn v]
  have hmod : v % (2 ^ c.nBits : Int) = v + 2 ^ c.nBits := by
    calc v % (2 ^ c.nBits : Int)
        = (v + 1 * 2 ^ c.nBits) % (2 ^ c.nBits : Int) :=
          (Int.add_mul_emod_self (a := v) (b := 1) (c := 2 ^ c.nBits)).symm
      _ = (v + 2 ^ c.nBits) % (2 ^ c.nBits : Int) := by rw [one_mul]
      _ = v + 2 ^ c.nBits := Int.emod_eq_of_lt (by omega) (by omega)
  rw [hmod]

/-! ### Characterizing the bytes written by `pack` into an empty vector -/

theorem byteAt_replicate_zero (n k : Nat) :
    byteAt (List.replicate n 0) k = 0 := by
  unfold byteAt
  rw [List.getD_eq_getElem?_getD, List.getElem?_replicate]
  split <;> rfl

theorem pack_length (c : IntCfg) (e : Endian) (host : Bool) (v : Int)
    (bs : List Nat) : (pack c e host v bs).length = bs.length + ioBytes c := by
  simp only [pack]
  split <;>
    simp [writeLoop_length, List.length_append, List.length_replicate]

theorem byteAt_pack_nil (c : IntCfg) (hc : Valid c) (e : Endian) (host : Bool)
    (v : Int) (k : Nat) :
    byteAt (pack c e host v []) k =
      if endianOffset c e host = 0 then
        if k < ioBytes c then (packedPattern c v >>> (8 * k)) &&& 255 else 0
      else if alignBytes c ≤ k ∧ k ≤ endianOffset c e host then
        (packedPattern c v >>> (8 * (endianOffset c e host - k))) &&& 255
      else 0 := by
  have hD := dataBytes_pos c hc
  have hio3 : ioBytes c = dataBytes c + alignBytes c := rfl
  have hio : 1 ≤ ioBytes c := by omega
  simp only [pack, List.nil_append]
  by_cases hz : endianOffset c e host = 0
  · rw [hz, if_neg (by omega : ¬ (0 : Nat) ≠ 0), if_pos rfl]
    rw [byteAt_writeLoop_fwd _ _ _ (by simp) k]
    split
    · rfl
    · exact byteAt_replicate_zero _ _
  · rcases endianOffset_eq_zero_or c e host with h0 | h1
    · exact absurd h0 hz
    · rw [if_pos hz, if_neg hz, h1]
      have hio2 : 2 ≤ ioBytes c := by omega
      rw [byteAt_writeLoop_rev _ _ _ _ (by omega) (by simp; omega) k]
      have hA : ioBytes c - 1 + 1 - dataBytes c = alignBytes c := by omega
      rw [hA]
      split
      · rfl
      · exact byteAt_replicate_zero _ _

end IntCodec

namespace IntCodec

/-! ### Bit-level helper lemmas -/

theorem and_one_shiftLeft_ne_zero (b s : Nat) :
    (b &&& (1 <<< s) ≠ 0) ↔ b.testBit s = true := by
  rw [Nat.one_shiftLeft]
  constructor
  · intro h
    by_contra htb
    apply h
    apply Nat.eq_of_testBit_eq
    intro k
    rw [Nat.testBit_land, Nat.zero_testBit]
    rcases eq_or_ne k s with rfl | hk
    · rw [Bool.not_eq_true] at htb
      simp [htb]
    · rw [Nat.testBit_two_pow_of_ne (Ne.symm hk)]
      simp
  · intro h hcontra
    have hb : (b &&& 2 ^ s).testBit s = true := by
      rw [Nat.testBit_land, h, Nat.testBit_two_pow_self]
      rfl
    rw [hcontra, Nat.zero_testBit] at hb
    exact Bool.false_ne_true hb

theorem testBit_pred_true (n m : Nat) (h1 : 2 ^ n ≤ m) (h2 : m < 2 ^ (n + 1)) :
    m.testBit n = true := by
  rw [Nat.testBit_to_div_mod]
  have hdiv : m / 2 ^ n = 1 := by
    apply Nat.div_eq_of_lt_le (by omega)
    have : (1 + 1) * 2 ^ n = 2 ^ (n + 1) := by rw [pow_succ]; ring
    omega
  simp [hdiv]

theorem xor_masks (n w : Nat) (h : n ≤ w) :
    (2 ^ w - 1) ^^^ (2 ^ n - 1) = (2 ^ (w - n) - 1) <<< n := by
  apply Nat.eq_of_testBit_eq
  intro k
  rw [Nat.testBit_xor, Nat.testBit_two_pow_sub_one, Nat.testBit_two_pow_sub_one,
    Nat.testBit_shiftLeft, Nat.testBit_two_pow_sub_one]
  by_cases h1 : k < n
  · simp [h1, show k < w by omega, show ¬ n ≤ k by omega]
  · by_cases h2 : k < w
    · simp [h1, h2, show n ≤ k by omega, show k - n < w - n by omega]
    · simp [h1, h2, show n ≤ k by omega, show ¬ (k - n < w - n) by omega]

theorem lor_shiftLeft_eq_add (m a n : Nat) (hm : m < 2 ^ n) :
    m ||| (a <<< n) = 2 ^ n * a + m := by
  apply Nat.eq_of_testBit_eq
  intro k
  rw [Nat.testBit_lor, Nat.testBit_shiftLeft, Nat.testBit_mul_pow_two_add a hm k]
  by_cases h1 : k < n
  · simp [h1, show ¬ n ≤ k by omega]
  · have hmk : m.testBit k = false :=
      Nat.testBit_lt_two_pow
        (lt_of_lt_of_le hm (Nat.pow_le_pow_right (by norm_num) (by omega)))
    simp [h1, show n ≤ k by omega, hmk]

theorem toSigned_emod (w : Nat) (hw : 1 ≤ w) (v : Int)
    (hlo : -(2 ^ (w - 1) : Int) ≤ v) (hhi : v < 2 ^ (w - 1)) :
    toSigned w ((v % (2 ^ w : Int)).toNat) = v := by
  have hc1 : ((2 ^ (w - 1) : Nat) : Int) = 2 ^ (w - 1) := by push_cast; ring
  have hc2 : ((2 ^ w : Nat) : Int) = 2 ^ w := by push_cast; ring
  have hpow : (2 ^ w : Int) = 2 * 2 ^ (w - 1) := by
    rw [← pow_succ']
    congr 1
    omega
  have hvmod : v % (2 ^ w : Int) = v ∨ v % (2 ^ w : Int) = v + 2 ^ w := by
    by_cases h0 : 0 ≤ v
    · left
      exact Int.emod_eq_of_lt h0 (by omega)
    · right
      calc v % (2 ^ w : Int)
          = (v + 1 * 2 ^ w) % (2 ^ w : Int) :=
            (Int.add_mul_emod_self (a := v) (b := 1) (c := 2 ^ w)).symm
        _ = (v + 2 ^ w) % (2 ^ w : Int) := by rw [one_mul]
        _ = v + 2 ^ w := Int.emod_eq_of_lt (by omega) (by omega)
  unfold toSigned
  rcases hvmod with hvm | hvm <;> rw [hvm] <;> split <;> omega

end IntCodec

namespace IntCodec

/-! ### The accumulator and sign byte seen by `unpack` after `pack` -/

theorem unpackAcc_pack (c : IntCfg) (hc : Valid c) (e : Endian) (host : Bool)
    (v : Int) :
    unpackAcc c e host (pack c e host v []) 0 = packedPattern c v := by
  have hD := dataBytes_pos c hc
  have hio3 : ioBytes c = dataBytes c + alignBytes c := rfl
  have hnD := nBits_le_eight_mul_dataBytes c
  have hmlt := packedPattern_lt c hc.2.2.2 v
  have hmlt8 : packedPattern c v < 2 ^ (8 * dataBytes c) :=
    lt_of_lt_of_le hmlt (Nat.pow_le_pow_right (by norm_num) hnD)
  have hB := byteAt_pack_nil c hc e host v
  simp only [unpackAcc]
  by_cases hz : endianOffset c e host = 0
  · rw [hz, if_neg (by omega : ¬ (0 : Nat) ≠ 0)]
    have hcongr :
        readAcc (fun i => byteAt (pack c e host v []) (i + 0)) (dataBytes c)
          = readAcc (fun i => (packedPattern c v >>> (8 * i)) &&& 255)
              (dataBytes c) := by
      apply readAcc_congr
      intro i hi
      rw [hB (i + 0), if_pos hz, if_pos (show i + 0 < ioBytes c by omega)]
      norm_num
    rw [hcongr, readAcc_bytes]
    exact Nat.mod_eq_of_lt hmlt8
  · rcases endianOffset_eq_zero_or c e host with h0 | h1
    · exact absurd h0 hz
    · rw [if_pos hz]
      have hcongr :
          readAcc
            (fun i => byteAt (pack c e host v [])
              (endianOffset c e host - i + 0)) (dataBytes c)
            = readAcc (fun i => (packedPattern c v >>> (8 * i)) &&& 255)
                (dataBytes c) := by
        apply readAcc_congr
        intro i hi
        rw [hB (endianOffset c e host - i + 0), if_neg hz,
          if_pos (show alignBytes c ≤ endianOffset c e host - i + 0 ∧
            endianOffset c e host - i + 0 ≤ endianOffset c e host by omega)]
        congr 2
        omega
      rw [hcongr, readAcc_bytes]
      exact Nat.mod_eq_of_lt hmlt8

theorem signByte_pack (c : IntCfg) (hc : Valid c) (e : Endian) (host : Bool)
    (v : Int) :
    byteAt (pack c e host v [])
        ((if endianOffset c e host ≠ 0 then alignBytes c
          else dataBytes c - 1) + 0)
      = (packedPattern c v >>> (8 * (dataBytes c - 1))) &&& 255 := by
  have hD := dataBytes_pos c hc
  have hio3 : ioBytes c = dataBytes c + alignBytes c := rfl
  have hB := byteAt_pack_nil c hc e host v
  by_cases hz : endianOffset c e host = 0
  · rw [if_neg (fun h => h hz), hB, if_pos hz,
      if_pos (show dataBytes c - 1 + 0 < ioBytes c by omega)]
    norm_num
  · rcases endianOffset_eq_zero_or c e host with h0 | h1
    · exact absurd h0 hz
    · rw [if_pos hz, hB, if_neg hz,
        if_pos (show alignBytes c ≤ alignBytes c + 0 ∧
          alignBytes c + 0 ≤ endianOffset c e host by omega)]
      congr 2
      omega

end IntCodec

namespace IntCodec

/-- After `pack` into an empty vector, `unpack`'s `result` pattern is the
container pattern of `v`, for every representable `v`. -/
theorem unpackPattern_pack (c : IntCfg) (hc : Valid c) (e : Endian)
    (host : Bool) (v : Int) (hv : Representable c v) :
    unpackPattern c e host (pack c e host v []) 0
      = (v % (2 ^ c.containerBits : Int)).toNat := by
  have hn1 : 1 ≤ c.nBits := hc.2.2.1
  have hnW : c.nBits ≤ c.containerBits := hc.2.2.2
  have hacc := unpackAcc_pack c hc e host v
  have hsb := signByte_pack c hc e host v
  have hmlt := packedPattern_lt c hnW v
  have hcast1 : ((2 ^ (c.nBits - 1) : Nat) : Int) = 2 ^ (c.nBits - 1) := by
    push_cast; ring
  have hcast2 : ((2 ^ c.nBits : Nat) : Int) = 2 ^ c.nBits := by
    push_cast; ring
  have hcastW : ((2 ^ c.containerBits : Nat) : Int) = 2 ^ c.containerBits := by
    push_cast; ring
  have hpow : (2 : Nat) ^ c.nBits = 2 * 2 ^ (c.nBits - 1) := by
    rw [← pow_succ']
    congr 1
    omega
  have hle : (2 : Nat) ^ c.nBits ≤ 2 ^ c.containerBits :=
    Nat.pow_le_pow_right (by norm_num) hnW
  have hWpos : (0 : Nat) < 2 ^ c.containerBits := by positivity
  simp only [unpackPattern]
  rw [hacc, hsb]
  by_cases hnwc : c.nBits ≠ c.containerBits
  · rw [if_pos hnwc]
    have hmask : packedPattern c v &&& valueMask c = packedPattern c v := by
      rw [valueMask_eq]
      exact Nat.and_pow_two_sub_one_of_lt_two_pow hmlt
    rw [hmask]
    have hbit :
        (((packedPattern c v >>> (8 * (dataBytes c - 1))) &&& 255) &&&
            (1 <<< ((c.nBits % 8 + 7) % 8)) ≠ 0)
          ↔ (packedPattern c v).testBit (c.nBits - 1) = true := by
      rw [and_one_shiftLeft_ne_zero, Nat.testBit_land, Nat.testBit_shiftRight]
      have hpos := sign_bit_position c hc
      rw [show 8 * (dataBytes c - 1) + (c.nBits % 8 + 7) % 8 = c.nBits - 1
          from hpos]
      have h255 : Nat.testBit 255 ((c.nBits % 8 + 7) % 8) = true := by
        have h8 : (255 : Nat) = 2 ^ 8 - 1 := by norm_num
        rw [h8, Nat.testBit_two_pow_sub_one]
        exact decide_eq_true (by omega)
      rw [h255, Bool.and_true]
    by_cases hs : c.signed = true
    · rw [if_pos hs]
      by_cases hneg : v < 0
      · have hrep : -(2 ^ (c.nBits - 1) : Int) ≤ v ∧ v < 2 ^ (c.nBits - 1) := by
          unfold Representable at hv
          rw [hs] at hv
          simpa using hv
        have hm := packedPattern_of_neg c hnW v (by omega) hneg
        have hmge : 2 ^ (c.nBits - 1) ≤ packedPattern c v := by
          rw [hm]; omega
        have htb : (packedPattern c v).testBit (c.nBits - 1) = true := by
          apply testBit_pred_true
          · exact hmge
          · rw [show c.nBits - 1 + 1 = c.nBits by omega]
            exact hmlt
        rw [if_pos (hbit.mpr htb), valueMask_eq, xor_masks _ _ hnW,
          lor_shiftLeft_eq_add _ _ _ hmlt]
        have hprod : 2 ^ c.nBits * (2 ^ (c.containerBits - c.nBits) - 1)
            = 2 ^ c.containerBits - 2 ^ c.nBits := by
          rw [Nat.mul_sub, mul_one, ← pow_add]
          rw [show c.nBits + (c.containerBits - c.nBits) = c.containerBits
            by omega]
        rw [hprod]
        have hvmod : v % (2 ^ c.containerBits : Int) = v + 2 ^ c.containerBits := by
          calc v % (2 ^ c.containerBits : Int)
              = (v + 1 * 2 ^ c.containerBits) % (2 ^ c.containerBits : Int) :=
                (Int.add_mul_emod_self (a := v) (b := 1)).symm
            _ = (v + 2 ^ c.containerBits) % (2 ^ c.containerBits : Int) := by
                rw [one_mul]
            _ = v + 2 ^ c.containerBits := by
                apply Int.emod_eq_of_lt <;> omega
        rw [hvmod, hm]
        omega
      · have hrep : -(2 ^ (c.nBits - 1) : Int) ≤ v ∧ v < 2 ^ (c.nBits - 1) := by
          unfold Representable at hv
          rw [hs] at hv
          simpa using hv
        have hm := packedPattern_of_nonneg c hnW v (by omega) (by omega)
        have hmlt' : packedPattern c v < 2 ^ (c.nBits - 1) := by
          rw [hm]; omega
        have htb : (packedPattern c v).testBit (c.nBits - 1) = false :=
          Nat.testBit_lt_two_pow hmlt'
        rw [if_neg (fun h => by rw [hbit.mp h] at htb; exact Bool.noConfusion htb)]
        have hvmod : v % (2 ^ c.containerBits : Int) = v :=
          Int.emod_eq_of_lt (by omega) (by omega)
        rw [hvmod, hm]
    · rw [if_neg hs]
      have hrep : 0 ≤ v ∧ v < 2 ^ c.nBits := by
        unfold Representable at hv
        rw [Bool.not_eq_true] at hs
        rw [hs] at hv
        simpa using hv
      have hm := packedPattern_of_nonneg c hnW v hrep.1 hrep.2
      have hvmod : v % (2 ^ c.containerBits : Int) = v :=
        Int.emod_eq_of_lt (by omega) (by omega)
      rw [hvmod, hm]
  · rw [if_neg hnwc]
    have heq : c.nBits = c.containerBits := by omega
    unfold packedPattern
    rw [valueMask_eq, Nat.and_pow_two_sub_one_eq_mod, heq]
    apply Nat.mod_eq_of_lt
    have h1 : v % (2 ^ c.containerBits : Int) < (2 ^ c.containerBits : Int) :=
      Int.emod_lt_of_pos v (by positivity)
    omega

end IntCodec

namespace IntCodec

/-- Round-trip: `unpack(pack(v))` recovers every representable `v`, for
every valid configuration, endianness, host byte order and alignment. -/
theorem unpack_pack (c : IntCfg) (hc : Valid c) (e : Endian) (host : Bool)
    (v : Int) (hv : Representable c v) :
    unpack c e host (pack c e host v []) 0 = v := by
  have hn1 : 1 ≤ c.nBits := hc.2.2.1
  have hnW : c.nBits ≤ c.containerBits := hc.2.2.2
  have hW1 : 1 ≤ c.containerBits := hc.1
  have hP := unpackPattern_pack c hc e host v hv
  have hcast1 : ((2 ^ (c.nBits - 1) : Nat) : Int) = 2 ^ (c.nBits - 1) := by
    push_cast; ring
  have hcastW1 : ((2 ^ (c.containerBits - 1) : Nat) : Int)
      = 2 ^ (c.containerBits - 1) := by push_cast; ring
  have hcast2 : ((2 ^ c.nBits : Nat) : Int) = 2 ^ c.nBits := by push_cast; ring
  have hcastW : ((2 ^ c.containerBits : Nat) : Int) = 2 ^ c.containerBits := by
    push_cast; ring
  have hle1 : (2 : Nat) ^ (c.nBits - 1) ≤ 2 ^ (c.containerBits - 1) :=
    Nat.pow_le_pow_right (by norm_num) (by omega)
  have hle2 : (2 : Nat) ^ c.nBits ≤ 2 ^ c.containerBits :=
    Nat.pow_le_pow_right (by norm_num) hnW
  have hpowW : (2 : Nat) ^ c.containerBits = 2 * 2 ^ (c.containerBits - 1) := by
    rw [← pow_succ']
    congr 1
    omega
  unfold unpack
  rw [hP]
  by_cases hs : c.signed = true
  · rw [if_pos hs]
    have hrep : -(2 ^ (c.nBits - 1) : Int) ≤ v ∧ v < 2 ^ (c.nBits - 1) := by
      unfold Representable at hv
      rw [hs] at hv
      simpa using hv
    exact toSigned_emod c.containerBits hW1 v (by omega) (by omega)
  · rw [if_neg hs]
    have hrep : 0 ≤ v ∧ v < 2 ^ c.nBits := by
      unfold Representable at hv
      rw [Bool.not_eq_true] at hs
      rw [hs] at hv
      simpa using hv
    have hvm : v % (2 ^ c.containerBits : Int) = v :=
      Int.emod_eq_of_lt hrep.1 (by omega)
    rw [hvm]
    exact Int.toNat_of_nonneg hrep.1

end IntCodec

namespace IntCodec

/-! ### Range and dependency analysis of `unpack` -/

theorem unpackAcc_lt (c : IntCfg) (e : Endian) (host : Bool) (bs : List Nat)
    (offset : Nat) (h256 : ∀ i, byteAt bs i < 256) :
    unpackAcc c e host bs offset < 2 ^ (8 * dataBytes c) := by
  simp only [unpackAcc]
  split <;> exact readAcc_lt _ (fun i => h256 _) _

theorem and_valueMask_testBit_top (c : IntCfg) (hc : Valid c) (acc : Nat) :
    (acc &&& valueMask c).testBit (c.nBits - 1) = acc.testBit (c.nBits - 1) := by
  have hn1 : 1 ≤ c.nBits := hc.2.2.1
  rw [valueMask_eq, Nat.testBit_land, Nat.testBit_two_pow_sub_one,
    decide_eq_true (show c.nBits - 1 < c.nBits by omega), Bool.and_true]

/-- The sign-bit test of `unpack` reads exactly bit `N_BITS - 1` of the
accumulated pattern: the byte at the `MSB` index is the one the copy loop
read in iteration `_N_DATA_BYTES - 1`, and `SIGN_BIT_MASK` selects the top
value bit inside it. -/
theorem unpackAcc_testBit_top (c : IntCfg) (hc : Valid c) (e : Endian)
    (host : Bool) (bs : List Nat) (offset : Nat)
    (h256 : ∀ i, byteAt bs i < 256) :
    (unpackAcc c e host bs offset).testBit (c.nBits - 1)
      = (byteAt bs ((if endianOffset c e host ≠ 0 then alignBytes c
          else dataBytes c - 1) + offset)).testBit ((c.nBits % 8 + 7) % 8) := by
  have hn1 : 1 ≤ c.nBits := hc.2.2.1
  have hD := dataBytes_pos c hc
  have hio3 : ioBytes c = dataBytes c + alignBytes c := rfl
  have hnD := nBits_le_eight_mul_dataBytes c
  have hDdef : dataBytes c = (c.nBits + 7) / 8 := rfl
  have hk : c.nBits - 1 < 8 * dataBytes c := by omega
  have hdiv : (c.nBits - 1) / 8 = dataBytes c - 1 := by omega
  have hmod : (c.nBits - 1) % 8 = (c.nBits % 8 + 7) % 8 := by omega
  simp only [unpackAcc]
  by_cases hz : endianOffset c e host = 0
  · rw [hz, if_neg (by omega : ¬ (0 : Nat) ≠ 0),
      if_neg (by omega : ¬ (0 : Nat) ≠ 0),
      readAcc_testBit _ (fun i => h256 _) _ _, decide_eq_true hk,
      Bool.true_and, hdiv, hmod]
  · rcases endianOffset_eq_zero_or c e host with h0 | h1
    · exact absurd h0 hz
    · rw [if_pos hz, if_pos hz,
        readAcc_testBit _ (fun i => h256 _) _ _, decide_eq_true hk,
        Bool.true_and, hdiv, hmod]
      have hidx : endianOffset c e host - (dataBytes c - 1) + offset
          = alignBytes c + offset := by omega
      rw [hidx]

theorem lt_pow_pred_of_testBit_false (n m : Nat) (hn : 1 ≤ n)
    (hm : m < 2 ^ n) (htb : m.testBit (n - 1) = false) : m < 2 ^ (n - 1) := by
  by_contra h
  have := testBit_pred_true (n - 1) m (by omega)
    (by rw [show n - 1 + 1 = n by omega]; exact hm)
  rw [htb] at this
  exact Bool.noConfusion this

/-- `unpack` always returns a value representable in `N_BITS`. -/
theorem unpack_representable (c : IntCfg) (hc : Valid c) (e : Endian)
    (host : Bool) (bs : List Nat) (offset : Nat)
    (h256 : ∀ i, byteAt bs i < 256) :
    Representable c (unpack c e host bs offset) := by
  have hn1 : 1 ≤ c.nBits := hc.2.2.1
  have hnW : c.nBits ≤ c.containerBits := hc.2.2.2
  have hW1 : 1 ≤ c.containerBits := hc.1
  have hW8 : c.containerBits % 8 = 0 := hc.2.1
  have hio8 := eight_mul_ioBytes_le c hc
  have hio3 : ioBytes c = dataBytes c + alignBytes c := rfl
  have hcast1 : ((2 ^ (c.nBits - 1) : Nat) : Int) = 2 ^ (c.nBits - 1) := by
    push_cast; ring
  have hcast2 : ((2 ^ c.nBits : Nat) : Int) = 2 ^ c.nBits := by push_cast; ring
  have hcastW : ((2 ^ c.containerBits : Nat) : Int) = 2 ^ c.containerBits := by
    push_cast; ring
  have hcastW1 : ((2 ^ (c.containerBits - 1) : Nat) : Int)
      = 2 ^ (c.containerBits - 1) := by push_cast; ring
  have hpow : (2 : Nat) ^ c.nBits = 2 * 2 ^ (c.nBits - 1) := by
    rw [← pow_succ']; congr 1; omega
  have hpowW : (2 : Nat) ^ c.containerBits = 2 * 2 ^ (c.containerBits - 1) := by
    rw [← pow_succ']; congr 1; omega
  have hle1 : (2 : Nat) ^ (c.nBits - 1) ≤ 2 ^ (c.containerBits - 1) :=
    Nat.pow_le_pow_right (by norm_num) (by omega)
  have hle2 : (2 : Nat) ^ c.nBits ≤ 2 ^ c.containerBits :=
    Nat.pow_le_pow_right (by norm_num) hnW
  have hacclt := unpackAcc_lt c e host bs offset h256
  have haccW : unpackAcc c e host bs offset < 2 ^ c.containerBits :=
    lt_of_lt_of_le hacclt (Nat.pow_le_pow_right (by norm_num) (by omega))
  have htop := unpackAcc_testBit_top c hc e host bs offset h256
  unfold unpack unpackPattern
  unfold Representable
  by_cases hnwc : c.nBits ≠ c.containerBits
  · rw [if_pos hnwc]
    have hmask : unpackAcc c e host bs offset &&& valueMask c < 2 ^ c.nBits := by
      apply Nat.and_lt_two_pow
      rw [valueMask_eq]
      have : (0 : Nat) < 2 ^ c.nBits := by positivity
      omega
    by_cases hs : c.signed = true
    · simp only [hs, eq_self_iff_true, if_true]
      set m := unpackAcc c e host bs offset &&& valueMask c with hm
      have hmtop : m.testBit (c.nBits - 1)
          = (unpackAcc c e host bs offset).testBit (c.nBits - 1) :=
        and_valueMask_testBit_top c hc _
      by_cases hcond : byteAt bs
          ((if endianOffset c e host ≠ 0 then alignBytes c
            else dataBytes c - 1) + offset) &&&
          1 <<< ((c.nBits % 8 + 7) % 8) ≠ 0
      · rw [if_pos hcond]
        have htb : m.testBit (c.nBits - 1) = true := by
          rw [hmtop, htop]
          exact (and_one_shiftLeft_ne_zero _ _).mp hcond
        have hmge : 2 ^ (c.nBits - 1) ≤ m := Nat.testBit_implies_ge htb
        rw [valueMask_eq, xor_masks _ _ hnW, lor_shiftLeft_eq_add _ _ _ hmask]
        have hprod : 2 ^ c.nBits * (2 ^ (c.containerBits - c.nBits) - 1)
            = 2 ^ c.containerBits - 2 ^ c.nBits := by
          rw [Nat.mul_sub, mul_one, ← pow_add]
          rw [show c.nBits + (c.containerBits - c.nBits) = c.containerBits
            by omega]
        rw [hprod]
        unfold toSigned
        split <;> constructor <;> omega
      · rw [if_neg hcond]
        have htb : m.testBit (c.nBits - 1) = false := by
          rw [hmtop, htop]
          by_contra h
          rw [Bool.not_eq_false] at h
          exact hcond ((and_one_shiftLeft_ne_zero _ _).mpr h)
        have hmlt := lt_pow_pred_of_testBit_false c.nBits m hn1 hmask htb
        unfold toSigned
        split <;> constructor <;> omega
    · rw [Bool.not_eq_true] at hs
      simp only [hs, Bool.false_eq_true, if_false]
      constructor
      · positivity
      · omega
  · rw [if_neg hnwc]
    have heq : c.nBits = c.containerBits := by omega
    by_cases hs : c.signed = true
    · simp only [hs, eq_self_iff_true, if_true]
      unfold toSigned
      rw [heq]
      split <;> constructor <;> omega
    · rw [Bool.not_eq_true] at hs
      simp only [hs, Bool.false_eq_true, if_false]
      rw [heq]
      constructor
      · positivity
      · omega

end IntCodec

namespace IntCodec

/-! ### `byteAt` views of list operations -/

theorem byteAt_take (l : List Nat) (n k : Nat) :
    byteAt (l.take n) k = if k < n then byteAt l k else 0 := by
  unfold byteAt
  by_cases h : k < n
  · rw [if_pos h, List.getD_eq_getElem?_getD, List.getD_eq_getElem?_getD,
      List.getElem?_take_of_lt h]
  · rw [if_neg h, List.getD_eq_getElem?_getD, List.getElem?_eq_none (by
      rw [List.length_take]; omega)]
    rfl

theorem byteAt_drop (l : List Nat) (a k : Nat) :
    byteAt (l.drop a) k = byteAt l (a + k) := by
  unfold byteAt
  rw [List.getD_eq_getElem?_getD, List.getD_eq_getElem?_getD,
    List.getElem?_drop]

theorem byteAt_reverse (l : List Nat) (k : Nat) (h : k < l.length) :
    byteAt l.reverse k = byteAt l (l.length - 1 - k) := by
  unfold byteAt
  rw [List.getD_eq_getElem?_getD, List.getD_eq_getElem?_getD,
    List.getElem?_reverse h]

theorem eq_of_byteAt_eq (l1 l2 : List Nat) (hlen : l1.length = l2.length)
    (h : ∀ k, k < l1.length → byteAt l1 k = byteAt l2 k) : l1 = l2 := by
  apply List.ext_getElem hlen
  intro i hi1 hi2
  have hb := h i hi1
  unfold byteAt at hb
  rwa [List.getD_eq_getElem?_getD, List.getD_eq_getElem?_getD,
    List.getElem?_eq_getElem hi1, List.getElem?_eq_getElem hi2] at hb

theorem byteAt_zeroGarbage (c : IntCfg) (e : Endian) (host : Bool)
    (bs : List Nat) (offset j : Nat) :
    byteAt (zeroGarbage c e host bs offset) j =
      if j < bs.length then
        (if offset ≤ j ∧ j < offset + ioBytes c then
          if (if endianOffset c e host ≠ 0 then
              endianOffset c e host - (j - offset)
            else j - offset) < dataBytes c then
            byteAt bs j &&&
              ((valueMask c >>>
                (8 * (if endianOffset c e host ≠ 0 then
                  endianOffset c e host - (j - offset)
                else j - offset))) &&& 255)
          else 0
        else byteAt bs j)
      else 0 := by
  unfold zeroGarbage byteAt
  rw [List.getD_eq_getElem?_getD, List.getElem?_map]
  by_cases h : j < bs.length
  · rw [if_pos h, List.getElem?_range h]
    rfl
  · rw [if_neg h, List.getElem?_eq_none (by simp; omega)]
    rfl

/-! ### `unpack` depends only on the masked data bytes -/

theorem unpackAcc_testBit (c : IntCfg) (e : Endian) (host : Bool)
    (bs : List Nat) (offset : Nat) (h256 : ∀ i, byteAt bs i < 256) (k : Nat) :
    (unpackAcc c e host bs offset).testBit k =
      (decide (k < 8 * dataBytes c) &&
        (byteAt bs (readPos c e host offset (k / 8))).testBit (k % 8)) := by
  simp only [unpackAcc, readPos]
  by_cases hz : endianOffset c e host ≠ 0
  · rw [if_pos hz, if_pos hz, readAcc_testBit _ (fun i => h256 _) _ _]
  · rw [if_neg hz, if_neg hz, readAcc_testBit _ (fun i => h256 _) _ _]

theorem msb_index_eq_readPos (c : IntCfg) (hc : Valid c) (e : Endian)
    (host : Bool) (offset : Nat) :
    (if endianOffset c e host ≠ 0 then alignBytes c else dataBytes c - 1)
        + offset
      = readPos c e host offset (dataBytes c - 1) := by
  have hD := dataBytes_pos c hc
  have hio3 : ioBytes c = dataBytes c + alignBytes c := rfl
  unfold readPos
  by_cases hz : endianOffset c e host ≠ 0
  · rw [if_pos hz, if_pos hz]
    rcases endianOffset_eq_zero_or c e host with h0 | h1
    · exact absurd h0 hz
    · omega
  · rw [if_neg hz, if_neg hz]

/-- `unpack` reads the input only through the masked data bytes: two
vectors whose bytes at the read positions agree after masking with the
slice of `_VALUE_MASK` that falls into each byte decode identically. -/
theorem unpack_congr (c : IntCfg) (hc : Valid c) (e : Endian) (host : Bool)
    (bs1 bs2 : List Nat) (offset : Nat)
    (h1 : ∀ i, byteAt bs1 i < 256) (h2 : ∀ i, byteAt bs2 i < 256)
    (hagree : ∀ i, i < dataBytes c →
      byteAt bs1 (readPos c e host offset i) &&&
          ((valueMask c >>> (8 * i)) &&& 255)
        = byteAt bs2 (readPos c e host offset i) &&&
          ((valueMask c >>> (8 * i)) &&& 255)) :
    unpack c e host bs1 offset = unpack c e host bs2 offset := by
  have hn1 : 1 ≤ c.nBits := hc.2.2.1
  have hnW : c.nBits ≤ c.containerBits := hc.2.2.2
  have hW8 : c.containerBits % 8 = 0 := hc.2.1
  have hD := dataBytes_pos c hc
  have hnD := nBits_le_eight_mul_dataBytes c
  have hDdef : dataBytes c = (c.nBits + 7) / 8 := rfl
  -- bit-level agreement of the accumulators below `N_BITS`
  have haccbit : ∀ k, k < c.nBits →
      (unpackAcc c e host bs1 offset).testBit k
        = (unpackAcc c e host bs2 offset).testBit k := by
    intro k hk
    rw [unpackAcc_testBit c e host bs1 offset h1 k,
      unpackAcc_testBit c e host bs2 offset h2 k]
    have hidx : k / 8 < dataBytes c := by omega
    have hstep := congrArg (fun x => x.testBit (k % 8)) (hagree (k / 8) hidx)
    simp only [Nat.testBit_land] at hstep
    have hA : (valueMask c >>> (8 * (k / 8))).testBit (k % 8) = true := by
      rw [Nat.testBit_shiftRight, show 8 * (k / 8) + k % 8 = k by omega,
        valueMask_eq, Nat.testBit_two_pow_sub_one]
      exact decide_eq_true hk
    have h255 : Nat.testBit 255 (k % 8) = true := by
      rw [show (255 : Nat) = 2 ^ 8 - 1 by norm_num,
        Nat.testBit_two_pow_sub_one]
      exact decide_eq_true (by omega)
    simp only [hA, h255, Bool.and_true] at hstep
    rw [hstep]
  -- the masked accumulators agree
  have haccmask : unpackAcc c e host bs1 offset &&& (2 ^ c.nBits - 1)
      = unpackAcc c e host bs2 offset &&& (2 ^ c.nBits - 1) := by
    apply Nat.eq_of_testBit_eq
    intro k
    rw [Nat.testBit_land, Nat.testBit_land, Nat.testBit_two_pow_sub_one]
    by_cases hk : k < c.nBits
    · rw [haccbit k hk]
    · rw [decide_eq_false hk, Bool.and_false, Bool.and_false]
  -- the sign-test bytes agree on the sign bit
  have hsign : ((byteAt bs1 (readPos c e host offset (dataBytes c - 1))).testBit
        ((c.nBits % 8 + 7) % 8))
      = ((byteAt bs2 (readPos c e host offset (dataBytes c - 1))).testBit
        ((c.nBits % 8 + 7) % 8)) := by
    have hstep := congrArg (fun x => x.testBit ((c.nBits % 8 + 7) % 8))
      (hagree (dataBytes c - 1) (by omega))
    simp only [Nat.testBit_land] at hstep
    have hA : (valueMask c >>> (8 * (dataBytes c - 1))).testBit
        ((c.nBits % 8 + 7) % 8) = true := by
      rw [Nat.testBit_shiftRight, sign_bit_position c hc,
        valueMask_eq, Nat.testBit_two_pow_sub_one]
      exact decide_eq_true (by omega)
    have h255 : Nat.testBit 255 ((c.nBits % 8 + 7) % 8) = true := by
      rw [show (255 : Nat) = 2 ^ 8 - 1 by norm_num,
        Nat.testBit_two_pow_sub_one]
      exact decide_eq_true (by omega)
    simp only [hA, h255, Bool.and_true] at hstep
    exact hstep
  -- assemble
  unfold unpack unpackPattern
  by_cases hnwc : c.nBits ≠ c.containerBits
  · rw [if_pos hnwc, if_pos hnwc]
    have hm : unpackAcc c e host bs1 offset &&& valueMask c
        = unpackAcc c e host bs2 offset &&& valueMask c := by
      rw [valueMask_eq]
      exact haccmask
    by_cases hs : c.signed = true
    · simp only [hs, eq_self_iff_true, if_true]
      rw [msb_index_eq_readPos c hc e host offset]
      have hcond :
          (byteAt bs1 (readPos c e host offset (dataBytes c - 1)) &&&
              1 <<< ((c.nBits % 8 + 7) % 8) ≠ 0)
            ↔ (byteAt bs2 (readPos c e host offset (dataBytes c - 1)) &&&
              1 <<< ((c.nBits % 8 + 7) % 8) ≠ 0) := by
        rw [and_one_shiftLeft_ne_zero, and_one_shiftLeft_ne_zero, hsign]
      by_cases ht : byteAt bs1 (readPos c e host offset (dataBytes c - 1)) &&&
          1 <<< ((c.nBits % 8 + 7) % 8) ≠ 0
      · rw [if_pos ht, if_pos (hcond.mp ht), hm]
      · rw [if_neg ht, if_neg (fun h => ht (hcond.mpr h)), hm]
    · rw [Bool.not_eq_true] at hs
      simp only [hs, Bool.false_eq_true, if_false]
      rw [hm]
  · rw [if_neg hnwc, if_neg hnwc]
    have heq : c.nBits = c.containerBits := by omega
    have hacc : unpackAcc c e host bs1 offset = unpackAcc c e host bs2 offset := by
      have hlt1 := unpackAcc_lt c e host bs1 offset h1
      have hlt2 := unpackAcc_lt c e host bs2 offset h2
      have hDW : 8 * dataBytes c = c.nBits := by omega
      rw [hDW] at hlt1 hlt2
      calc unpackAcc c e host bs1 offset
          = unpackAcc c e host bs1 offset &&& (2 ^ c.nBits - 1) :=
            (Nat.and_pow_two_sub_one_of_lt_two_pow hlt1).symm
        _ = unpackAcc c e host bs2 offset &&& (2 ^ c.nBits - 1) := haccmask
        _ = unpackAcc c e host bs2 offset :=
            Nat.and_pow_two_sub_one_of_lt_two_pow hlt2
    rw [hacc]

end IntCodec

namespace IntCodec

/-! ### Garbage normalization -/

theorem byteAt_eq_zero_of_le (bs : List Nat) (j : Nat)
    (h : bs.length ≤ j) : byteAt bs j = 0 := by
  unfold byteAt
  rw [List.getD_eq_getElem?_getD, List.getElem?_eq_none h]
  rfl

theorem byteAt_lt (bs : List Nat) (h : ∀ b ∈ bs, b < 256) (i : Nat) :
    byteAt bs i < 256 := by
  by_cases hi : i < bs.length
  · unfold byteAt
    rw [List.getD_eq_getElem?_getD, List.getElem?_eq_getElem hi]
    exact h _ (List.getElem_mem hi)
  · rw [byteAt_eq_zero_of_le bs i (by omega)]
    norm_num

theorem byteAt_zeroGarbage_lt (c : IntCfg) (e : Endian) (host : Bool)
    (bs : List Nat) (offset : Nat) (h256 : ∀ i, byteAt bs i < 256) (j : Nat) :
    byteAt (zeroGarbage c e host bs offset) j < 256 := by
  rw [byteAt_zeroGarbage]
  split_ifs
  all_goals
    first
    | exact h256 j
    | exact lt_of_le_of_lt Nat.and_le_left (h256 j)
    | omega

theorem zeroGarbage_agree (c : IntCfg) (hc : Valid c) (e : Endian)
    (host : Bool) (bs : List Nat) (offset i : Nat) (hi : i < dataBytes c) :
    byteAt (zeroGarbage c e host bs offset) (readPos c e host offset i) &&&
        ((valueMask c >>> (8 * i)) &&& 255)
      = byteAt bs (readPos c e host offset i) &&&
        ((valueMask c >>> (8 * i)) &&& 255) := by
  have hD := dataBytes_pos c hc
  have hio3 : ioBytes c = dataBytes c + alignBytes c := rfl
  rw [byteAt_zeroGarbage]
  by_cases hlen : readPos c e host offset i < bs.length
  · rw [if_pos hlen]
    have hwin : offset ≤ readPos c e host offset i ∧
        readPos c e host offset i < offset + ioBytes c := by
      unfold readPos
      by_cases hz : endianOffset c e host ≠ 0
      · rcases endianOffset_eq_zero_or c e host with h0 | h1
        · exact absurd h0 hz
        · rw [if_pos hz]
          omega
      · rw [if_neg hz]
        omega
    rw [if_pos hwin]
    have hidx : (if endianOffset c e host ≠ 0 then
        endianOffset c e host - (readPos c e host offset i - offset)
      else readPos c e host offset i - offset) = i := by
      unfold readPos
      by_cases hz : endianOffset c e host ≠ 0
      · rcases endianOffset_eq_zero_or c e host with h0 | h1
        · exact absurd h0 hz
        · rw [if_pos hz, if_pos hz]
          omega
      · rw [if_neg hz, if_neg hz]
        omega
    rw [hidx, if_pos hi, Nat.land_assoc, Nat.and_self]
  · rw [if_neg hlen, byteAt_eq_zero_of_le bs _ (by omega), Nat.zero_and]

/-- `unpack` reads identically through `zeroGarbage`. -/
theorem unpack_zeroGarbage (c : IntCfg) (hc : Valid c) (e : Endian)
    (host : Bool) (bs : List Nat) (offset : Nat)
    (h256 : ∀ i, byteAt bs i < 256) :
    unpack c e host bs offset
      = unpack c e host (zeroGarbage c e host bs offset) offset := by
  apply unpack_congr c hc e host bs _ offset h256
    (byteAt_zeroGarbage_lt c e host bs offset h256)
  intro i hi
  exact (zeroGarbage_agree c hc e host bs offset i hi).symm

/-! ### Extension values -/

theorem extendValue_representable (c : IntCfg) (hc : Valid c) (v : Int) :
    Representable c (extendValue c v) := by
  have hn1 : 1 ≤ c.nBits := hc.2.2.1
  have hcast1 : ((2 ^ (c.nBits - 1) : Nat) : Int) = 2 ^ (c.nBits - 1) := by
    push_cast; ring
  have hcast2 : ((2 ^ c.nBits : Nat) : Int) = 2 ^ c.nBits := by push_cast; ring
  have hpow : (2 : Nat) ^ c.nBits = 2 * 2 ^ (c.nBits - 1) := by
    rw [← pow_succ']; congr 1; omega
  have h0 : 0 ≤ v % (2 ^ c.nBits : Int) := Int.emod_nonneg v (by positivity)
  have h1 : v % (2 ^ c.nBits : Int) < (2 ^ c.nBits : Int) :=
    Int.emod_lt_of_pos v (by positivity)
  unfold extendValue Representable
  by_cases hs : c.signed = true
  · simp only [hs, eq_self_iff_true, if_true]
    unfold toSigned
    split <;> constructor <;> omega
  · rw [Bool.not_eq_true] at hs
    simp only [hs, Bool.false_eq_true, if_false]
    constructor <;> omega

theorem packedPattern_extendValue (c : IntCfg) (hc : Valid c) (v : Int) :
    packedPattern c (extendValue c v) = packedPattern c v := by
  have hnW : c.nBits ≤ c.containerBits := hc.2.2.2
  have h0 : 0 ≤ v % (2 ^ c.nBits : Int) := Int.emod_nonneg v (by positivity)
  rw [packedPattern_eq c hnW, packedPattern_eq c hnW]
  congr 1
  unfold extendValue toSigned
  by_cases hs : c.signed = true
  · simp only [hs, eq_self_iff_true, if_true]
    split
    · rw [Int.toNat_of_nonneg h0, Int.emod_emod_of_dvd v dvd_rfl]
    · rw [Int.toNat_of_nonneg h0]
      calc (v % (2 ^ c.nBits : Int) - 2 ^ c.nBits) % (2 ^ c.nBits : Int)
          = (v % (2 ^ c.nBits : Int) + (-1) * 2 ^ c.nBits)
              % (2 ^ c.nBits : Int) := by ring_nf
        _ = v % (2 ^ c.nBits : Int) % (2 ^ c.nBits : Int) :=
            Int.add_mul_emod_self
        _ = v % (2 ^ c.nBits : Int) := Int.emod_emod_of_dvd v dvd_rfl
  · rw [Bool.not_eq_true] at hs
    simp only [hs, Bool.false_eq_true, if_false]
    exact Int.emod_emod_of_dvd v dvd_rfl

theorem pack_extendValue (c : IntCfg) (hc : Valid c) (e : Endian)
    (host : Bool) (v : Int) (bs : List Nat) :
    pack c e host (extendValue c v) bs = pack c e host v bs := by
  unfold pack
  rw [packedPattern_extendValue c hc v]

theorem packedPattern_emod (c : IntCfg) (hc : Valid c) (v : Int) :
    packedPattern c (v % (2 ^ c.nBits : Int)) = packedPattern c v := by
  have hnW : c.nBits ≤ c.containerBits := hc.2.2.2
  rw [packedPattern_eq c hnW, packedPattern_eq c hnW,
    Int.emod_emod_of_dvd v dvd_rfl]

theorem pack_emod (c : IntCfg) (hc : Valid c) (e : Endian) (host : Bool)
    (v : Int) (bs : List Nat) :
    pack c e host (v % (2 ^ c.nBits : Int)) bs = pack c e host v bs := by
  unfold pack
  rw [packedPattern_emod c hc v]

end IntCodec

namespace IntCodec

/-! ### Endianness symmetry of the packed data region -/

theorem endianOffset_opposite (c : IntCfg) (host : Bool) :
    (endianOffset c .BIG host = 0 ∧ endianOffset c .LITTLE host = ioBytes c - 1)
      ∨ (endianOffset c .BIG host = ioBytes c - 1 ∧
          endianOffset c .LITTLE host = 0) := by
  unfold endianOffset
  cases host
  · left
    constructor <;> simp
  · right
    constructor <;> simp

theorem byteAt_dataRegion_pack (c : IntCfg) (hc : Valid c) (e : Endian)
    (host : Bool) (v : Int) (k : Nat) (hk : k < dataBytes c) :
    byteAt (dataRegion c e host (pack c e host v [])) k
      = (packedPattern c v >>>
          (8 * (if endianOffset c e host ≠ 0 then dataBytes c - 1 - k else k)))
        &&& 255 := by
  have hD := dataBytes_pos c hc
  have hio3 : ioBytes c = dataBytes c + alignBytes c := rfl
  have hB := byteAt_pack_nil c hc e host v
  unfold dataRegion
  by_cases hz : endianOffset c e host ≠ 0
  · rcases endianOffset_eq_zero_or c e host with h0 | h1
    · exact absurd h0 hz
    · rw [if_pos hz, if_pos hz, byteAt_take _ _ _ , if_pos hk, byteAt_drop,
        hB (alignBytes c + k), if_neg hz,
        if_pos (show alignBytes c ≤ alignBytes c + k ∧
          alignBytes c + k ≤ endianOffset c e host by omega)]
      congr 2
      omega
  · rw [if_neg hz, if_neg hz, byteAt_take _ _ _, if_pos hk, hB k,
      if_pos (by omega : endianOffset c e host = 0),
      if_pos (show k < ioBytes c by omega)]

theorem dataRegion_length_pack (c : IntCfg) (hc : Valid c) (e : Endian)
    (host : Bool) (v : Int) :
    (dataRegion c e host (pack c e host v [])).length = dataBytes c := by
  have hD := dataBytes_pos c hc
  have hio3 : ioBytes c = dataBytes c + alignBytes c := rfl
  have hlen : (pack c e host v []).length = ioBytes c := by
    rw [pack_length]
    simp
  unfold dataRegion
  split <;> simp [List.length_take, List.length_drop, hlen] <;> omega

/-- Packing under `BIG` produces, over the `data_bytes` region, the
byte-reversal of packing under `LITTLE`. -/
theorem dataRegion_pack_big_reverse (c : IntCfg) (hc : Valid c) (host : Bool)
    (v : Int) :
    dataRegion c .BIG host (pack c .BIG host v [])
      = (dataRegion c .LITTLE host (pack c .LITTLE host v [])).reverse := by
  have hD := dataBytes_pos c hc
  have hio3 : ioBytes c = dataBytes c + alignBytes c := rfl
  have hlenB := dataRegion_length_pack c hc .BIG host v
  have hlenL := dataRegion_length_pack c hc .LITTLE host v
  apply eq_of_byteAt_eq
  · rw [hlenB, List.length_reverse, hlenL]
  · intro k hk
    rw [hlenB] at hk
    rw [byteAt_reverse _ k (by rw [hlenL]; omega), hlenL,
      byteAt_dataRegion_pack c hc .BIG host v k hk,
      byteAt_dataRegion_pack c hc .LITTLE host v (dataBytes c - 1 - k)
        (by omega)]
    rcases endianOffset_opposite c host with ⟨hB0, hL1⟩ | ⟨hB1, hL0⟩
    · rw [hB0, hL1, if_neg (by omega : ¬ (0 : Nat) ≠ 0)]
      by_cases hio1 : ioBytes c - 1 = 0
      · have hD1 : dataBytes c = 1 := by omega
        rw [hio1, if_neg (by omega : ¬ (0 : Nat) ≠ 0)]
        have hkk : dataBytes c - 1 - k = k := by omega
        rw [hkk]
      · rw [if_pos hio1]
        have hkk : dataBytes c - 1 - (dataBytes c - 1 - k) = k := by omega
        rw [hkk]
    · rw [hB1, hL0, if_neg (by omega : ¬ (0 : Nat) ≠ 0)]
      by_cases hio1 : ioBytes c - 1 = 0
      · have hD1 : dataBytes c = 1 := by omega
        rw [hio1, if_neg (by omega : ¬ (0 : Nat) ≠ 0)]
        have hkk : dataBytes c - 1 - k = k := by omega
        rw [hkk]
      · rw [if_pos hio1]

end IntCodec

/-! ## Claim theorems: the integer codec -/

/-- C1: for every integer `v` representable in `value_bits` bits (the
two's-complement range when the container is signed, `[0, 2^value_bits)`
when unsigned), packing `v` into an initially empty byte vector and then
unpacking it at offset 0 with the same container type, `value_bits`,
alignment flag and endianness returns exactly `v`, for every endianness in
{LITTLE, BIG}, aligned and unaligned, and every `value_bits` from the
claim's list that fits the container. -/
theorem claim_C1 (c : IntCfg) (hc : IntCodec.Valid c)
    (hbits : c.nBits ∈ [1, 7, 8, 12, 13, 24, 31, 32, 63, 64])
    (e : Endian) (host : Bool) (v : Int) (hv : IntCodec.Representable c v) :
    IntCodec.unpack c e host (IntCodec.pack c e host v []) 0 = v :=
  IntCodec.unpack_pack c hc e host v hv

theorem claim_C1_witness :
    IntCodec.Valid i24aCfg ∧
      i24aCfg.nBits ∈ [1, 7, 8, 12, 13, 24, 31, 32, 63, 64] ∧
      IntCodec.Representable i24aCfg (-1) ∧
      IntCodec.unpack i24aCfg .BIG true
        (IntCodec.pack i24aCfg .BIG true (-1) []) 0 = -1 :=
  ⟨by decide, by decide, by decide,
    claim_C1 i24aCfg (by decide) (by decide) .BIG true (-1) (by decide)⟩

/-- C2: the claim states that `IntIO::pack` appends its `io_bytes` output
bytes after the existing contents of a non-empty vector and leaves the
existing prefix unchanged.  The code computes `offset = bytes.size()` but
the write loops index `bytes[i]` and `bytes[endianness_offset - i]`
without adding `offset`, so packing `0x12` as an 8-bit unsigned value into
the vector `[0xAA]` overwrites the prefix and leaves the appended byte
zero: the result is `[0x12, 0x00]` instead of the claimed `[0xAA, 0x12]`.
This theorem evaluates the model at that failing input. -/
theorem claim_C2_bug :
    IntCodec.pack u8Cfg .LITTLE true 0x12 [0xAA] = [0x12, 0x00] ∧
      IntCodec.pack u8Cfg .LITTLE true 0x12 [0xAA] ≠ [0xAA, 0x12] := by
  decide

/-- C7: 24-bit signed aligned little-endian configuration: the byte
sequence `[0xFF,0xFF,0x7F,0x00]` decodes to 8388607, `[0xFF,0xFF,0xFF,0x00]`
decodes to -1, `[0x2B,0xF0,0x7F,0x42]` (garbage in the container's most
significant byte) decodes to 8384555, and re-encoding followed by
re-decoding that value is stable. -/
theorem claim_C7 :
    IntCodec.unpack i24aCfg .LITTLE true [0xFF, 0xFF, 0x7F, 0x00] 0
        = 8388607 ∧
      IntCodec.unpack i24aCfg .LITTLE true [0xFF, 0xFF, 0xFF, 0x00] 0
        = -1 ∧
      IntCodec.unpack i24aCfg .LITTLE true [0x2B, 0xF0, 0x7F, 0x42] 0
        = 8384555 ∧
      IntCodec.unpack i24aCfg .LITTLE true
        (IntCodec.pack i24aCfg .LITTLE true 8384555 []) 0 = 8384555 := by
  decide

/-- C8: `unpack` returns the same value whether the bits outside the
`value_bits` region hold garbage or are zeroed (`zeroGarbage`); packing
the decoded value and unpacking it again yields the same value; and
re-packing that second value reproduces the same bytes. -/
theorem claim_C8 (c : IntCfg) (hc : IntCodec.Valid c) (e : Endian)
    (host : Bool) (bs : List Nat) (offset : Nat)
    (hbytes : ∀ b ∈ bs, b < 256) :
    IntCodec.unpack c e host bs offset
        = IntCodec.unpack c e host
            (IntCodec.zeroGarbage c e host bs offset) offset ∧
      IntCodec.unpack c e host
          (IntCodec.pack c e host (IntCodec.unpack c e host bs offset) []) 0
        = IntCodec.unpack c e host bs offset ∧
      IntCodec.pack c e host
          (IntCodec.unpack c e host
            (IntCodec.pack c e host (IntCodec.unpack c e host bs offset) [])
            0) []
        = IntCodec.pack c e host (IntCodec.unpack c e host bs offset) [] := by
  have h256 := IntCodec.byteAt_lt bs hbytes
  have h1 := IntCodec.unpack_zeroGarbage c hc e host bs offset h256
  have h2 := IntCodec.unpack_pack c hc e host _
    (IntCodec.unpack_representable c hc e host bs offset h256)
  exact ⟨h1, h2, by rw [h2]⟩

theorem claim_C8_witness :
    IntCodec.unpack i24aCfg .LITTLE true [0x2B, 0xF0, 0x7F, 0x42] 0
        = IntCodec.unpack i24aCfg .LITTLE true
            (IntCodec.zeroGarbage i24aCfg .LITTLE true
              [0x2B, 0xF0, 0x7F, 0x42] 0) 0 :=
  (claim_C8 i24aCfg (by decide) .LITTLE true [0x2B, 0xF0, 0x7F, 0x42] 0
    (by decide)).1

/-- C9: for every value and fixed configuration, the `data_bytes` region
of `pack(v, BIG)` is the byte-reversal of the `data_bytes` region of
`pack(v, LITTLE)`, padding bytes excluded. -/
theorem claim_C9 (c : IntCfg) (hc : IntCodec.Valid c) (host : Bool)
    (v : Int) :
    IntCodec.dataRegion c .BIG host (IntCodec.pack c .BIG host v [])
      = (IntCodec.dataRegion c .LITTLE host
          (IntCodec.pack c .LITTLE host v [])).reverse :=
  IntCodec.dataRegion_pack_big_reverse c hc host v

theorem claim_C9_witness :
    IntCodec.dataRegion i24aCfg .BIG true
        (IntCodec.pack i24aCfg .BIG true 8384555 [])
      = (IntCodec.dataRegion i24aCfg .LITTLE true
          (IntCodec.pack i24aCfg .LITTLE true 8384555 [])).reverse :=
  claim_C9 i24aCfg (by decide) true 8384555

/-- C10: `IntIO::pack` accepts every container value (the model is a total
function with no error path): the packed bytes of `v` equal the packed
bytes of `v mod 2^value_bits`, and unpacking the result yields the
sign-extension (signed container) or zero-extension (unsigned container)
of `v mod 2^value_bits`, i.e. `extendValue`. -/
theorem claim_C10 (c : IntCfg) (hc : IntCodec.Valid c) (e : Endian)
    (host : Bool) (v : Int) (bs : List Nat) :
    IntCodec.pack c e host v bs
        = IntCodec.pack c e host (v % (2 ^ c.nBits : Int)) bs ∧
      IntCodec.unpack c e host (IntCodec.pack c e host v []) 0
        = IntCodec.extendValue c v := by
  constructor
  · exact (IntCodec.pack_emod c hc e host v bs).symm
  · rw [← IntCodec.pack_extendValue c hc e host v []]
    exact IntCodec.unpack_pack c hc e host _
      (IntCodec.extendValue_representable c hc v)

theorem claim_C10_witness :
    IntCodec.pack i24aCfg .LITTLE true 0x12345678 []
        = IntCodec.pack i24aCfg .LITTLE true
            ((0x12345678 : Int) % (2 ^ i24aCfg.nBits : Int)) [] ∧
      IntCodec.unpack i24aCfg .LITTLE true
          (IntCodec.pack i24aCfg .LITTLE true 0x12345678 []) 0
        = IntCodec.extendValue i24aCfg 0x12345678 :=
  claim_C10 i24aCfg (by decide) .LITTLE true 0x12345678 []

namespace FloatCodec

/-! ### Derived constants -/

theorem fractionDenominator_eq (c : FloatCfg) :
    fractionDenominator c = 2 ^ c.nBitsFraction := by
  unfold fractionDenominator fractionMask
  have : (0 : Nat) < 2 ^ c.nBitsFraction := by positivity
  omega

theorem exponentMask_cast (c : FloatCfg) :
    (exponentMask c : Int) = 2 ^ c.nBitsExponent - 1 := by
  unfold exponentMask
  have : (0 : Nat) < 2 ^ c.nBitsExponent := by positivity
  push_cast [Nat.cast_sub (by omega : 1 ≤ 2 ^ c.nBitsExponent)]
  ring

theorem exponentBias_bounds (c : FloatCfg) (hc : Valid c) :
    1 ≤ exponentBias c ∧ 2 * exponentBias c + 1 = (exponentMask c : Int) := by
  obtain ⟨hE2, hE30, hF⟩ := hc
  unfold exponentBias
  rw [exponentMask_cast]
  have h1 : (2 : Int) ^ 1 ≤ 2 ^ (c.nBitsExponent - 1) :=
    pow_le_pow_right (by norm_num) (by omega)
  have h2 : (2 : Int) ^ c.nBitsExponent = 2 * 2 ^ (c.nBitsExponent - 1) := by
    rw [← pow_succ']
    congr 1
    omega
  constructor <;> omega

/-! ### Field extraction from `assembleBits` -/

theorem shiftRight_and_one (x i : Nat) :
    (x >>> i) &&& 1 = if x.testBit i then 1 else 0 := by
  rw [Nat.and_one_is_mod, Nat.testBit_to_div_mod, Nat.shiftRight_eq_div_pow]
  by_cases h : x / 2 ^ i % 2 = 1
  · rw [if_pos (decide_eq_true h)]
    exact h
  · rw [if_neg (fun hh => h (of_decide_eq_true hh))]
    omega

theorem exponent_toNat_lt (c : FloatCfg) (hc : Valid c) (exponent : Int)
    (h0 : 0 ≤ exponent) (h1 : exponent ≤ (exponentMask c : Int)) :
    exponent.toNat < 2 ^ c.nBitsExponent := by
  have := exponentMask_cast c
  have hp : (0 : Int) < 2 ^ c.nBitsExponent := by positivity
  have hcast : ((2 ^ c.nBitsExponent : Nat) : Int) = 2 ^ c.nBitsExponent := by
    push_cast; ring
  omega

theorem exponent_field_pattern (c : FloatCfg) (hc : Valid c) (exponent : Int)
    (h0 : 0 ≤ exponent) (h1 : exponent ≤ (exponentMask c : Int)) :
    (exponent % (2 ^ 32 : Int)).toNat &&& exponentMask c = exponent.toNat := by
  obtain ⟨hE2, hE30, hF⟩ := hc
  have hm := exponentMask_cast c
  have h32 : (2 : Int) ^ c.nBitsExponent ≤ 2 ^ 32 :=
    pow_le_pow_right (by norm_num) (by omega)
  have hp : (0 : Int) < 2 ^ c.nBitsExponent := by positivity
  have hmod : exponent % (2 ^ 32 : Int) = exponent :=
    Int.emod_eq_of_lt h0 (by omega)
  rw [hmod]
  unfold exponentMask
  exact Nat.and_pow_two_sub_one_of_lt_two_pow
    (exponent_toNat_lt c ⟨hE2, hE30, hF⟩ exponent h0 h1)

theorem sign_testBit_zero (sign : Nat) (hs : sign ≤ 1) :
    sign.testBit 0 = decide (sign = 1) := by
  interval_cases sign <;> decide

theorem expField_assembleBits (c : FloatCfg) (hc : Valid c) (sign : Nat)
    (hs : sign ≤ 1) (exponent : Int) (h0 : 0 ≤ exponent)
    (h1 : exponent ≤ (exponentMask c : Int)) (n : Nat) :
    expField c (assembleBits c sign exponent n) = exponent.toNat := by
  have hXlt := exponent_toNat_lt c hc exponent h0 h1
  have hfm : n &&& fractionMask c < 2 ^ c.nBitsFraction := by
    apply Nat.and_lt_two_pow
    unfold fractionMask
    have : (0 : Nat) < 2 ^ c.nBitsFraction := by positivity
    omega
  unfold expField assembleBits
  rw [exponent_field_pattern c hc exponent h0 h1]
  apply Nat.eq_of_testBit_eq
  intro k
  rw [Nat.testBit_land, Nat.testBit_shiftRight, Nat.testBit_lor,
    Nat.testBit_lor, Nat.testBit_shiftLeft, Nat.testBit_shiftLeft]
  unfold exponentMask
  rw [Nat.testBit_two_pow_sub_one]
  by_cases hk : k < c.nBitsExponent
  · have hks : ¬ (c.nBitsExponent + c.nBitsFraction ≤ c.nBitsFraction + k) := by
      omega
    have hnk : (n &&& fractionMask c).testBit (c.nBitsFraction + k) = false :=
      Nat.testBit_lt_two_pow (lt_of_lt_of_le hfm
        (Nat.pow_le_pow_right (by norm_num) (by omega)))
    have hxk : c.nBitsFraction ≤ c.nBitsFraction + k := by omega
    have hsub : c.nBitsFraction + k - c.nBitsFraction = k := by omega
    simp [hks, hnk, hk, hxk, hsub]
  · have hrhs : exponent.toNat.testBit k = false :=
      Nat.testBit_lt_two_pow (lt_of_lt_of_le hXlt
        (Nat.pow_le_pow_right (by norm_num) (by omega)))
    simp [hk, hrhs]

theorem fracField_assembleBits (c : FloatCfg) (hc : Valid c) (sign : Nat)
    (hs : sign ≤ 1) (exponent : Int) (h0 : 0 ≤ exponent)
    (h1 : exponent ≤ (exponentMask c : Int)) (n : Nat) :
    fracField c (assembleBits c sign exponent n) = n &&& fractionMask c := by
  have hXlt := exponent_toNat_lt c hc exponent h0 h1
  unfold fracField assembleBits
  rw [exponent_field_pattern c hc exponent h0 h1]
  apply Nat.eq_of_testBit_eq
  intro k
  rw [Nat.testBit_land, Nat.testBit_lor, Nat.testBit_lor,
    Nat.testBit_shiftLeft, Nat.testBit_shiftLeft]
  unfold fractionMask
  rw [Nat.testBit_land, Nat.testBit_two_pow_sub_one]
  by_cases hk : k < c.nBitsFraction
  · have hs1 : ¬ (c.nBitsExponent + c.nBitsFraction ≤ k) := by omega
    have hs2 : ¬ (c.nBitsFraction ≤ k) := by omega
    simp [hs1, hs2, hk]
  · simp [hk]

theorem signField_assembleBits (c : FloatCfg) (hc : Valid c) (sign : Nat)
    (hs : sign ≤ 1) (exponent : Int) (h0 : 0 ≤ exponent)
    (h1 : exponent ≤ (exponentMask c : Int)) (n : Nat) :
    signField c (assembleBits c sign exponent n) = sign := by
  have hXlt := exponent_toNat_lt c hc exponent h0 h1
  have hfm : n &&& fractionMask c < 2 ^ c.nBitsFraction := by
    apply Nat.and_lt_two_pow
    unfold fractionMask
    have : (0 : Nat) < 2 ^ c.nBitsFraction := by positivity
    omega
  unfold signField assembleBits
  rw [exponent_field_pattern c hc exponent h0 h1, shiftRight_and_one]
  have htb : ((sign <<< (c.nBitsExponent + c.nBitsFraction) |||
        exponent.toNat <<< c.nBitsFraction) |||
        (n &&& fractionMask c)).testBit
        (c.nBitsFraction + c.nBitsExponent) = decide (sign = 1) := by
    rw [Nat.testBit_lor, Nat.testBit_lor, Nat.testBit_shiftLeft,
      Nat.testBit_shiftLeft]
    have h1' : (n &&& fractionMask c).testBit
        (c.nBitsFraction + c.nBitsExponent) = false :=
      Nat.testBit_lt_two_pow (lt_of_lt_of_le hfm
        (Nat.pow_le_pow_right (by norm_num) (by omega)))
    have h2' : exponent.toNat.testBit
        (c.nBitsFraction + c.nBitsExponent - c.nBitsFraction) = false := by
      rw [show c.nBitsFraction + c.nBitsExponent - c.nBitsFraction
          = c.nBitsExponent by omega]
      exact Nat.testBit_lt_two_pow hXlt
    have h3' : c.nBitsExponent + c.nBitsFraction
        ≤ c.nBitsFraction + c.nBitsExponent := by omega
    have h4' : c.nBitsFraction + c.nBitsExponent -
        (c.nBitsExponent + c.nBitsFraction) = 0 := by omega
    rw [h1', h2', h4', decide_eq_true h3', sign_testBit_zero sign hs]
    simp
  rw [htb]
  rcases Nat.lt_or_ge sign 1 with h | h
  · have hz : sign = 0 := by omega
    subst hz
    simp
  · have ho : sign = 1 := by omega
    subst ho
    simp

end FloatCodec

namespace FloatCodec

/-! ### The rounding step -/

theorem specRoundNearestEven_nonneg (x : ℚ) (hx : 0 ≤ x) :
    0 ≤ specRoundNearestEven x := by
  have h := Int.floor_nonneg.mpr hx
  unfold specRoundNearestEven
  split <;> omega

theorem specRoundNearestEven_le (x : ℚ) (b : Int) (hb : x < b) :
    specRoundNearestEven x ≤ b := by
  have h := Int.floor_lt.mpr hb
  unfold specRoundNearestEven
  split <;> omega

/-- The fraction-extraction tail computes exactly the round-to-nearest-even
of `fraction * FRACTION_DENOMINATOR`, carrying an overflowed fraction into
the exponent and failing when the carried exponent reaches
`EXPONENT_MASK`. -/
theorem fractionRound_eq (c : FloatCfg) (sign : Nat) (g : ℚ) (exponent : Int)
    (hg0 : 0 ≤ g) (hg1 : g < 1) :
    fractionRound c sign g exponent =
      if specRoundNearestEven (g * (fractionDenominator c : ℚ))
          = (fractionDenominator c : Int) then
        if (exponentMask c : Int) ≤ exponent + 1 then Except.error .tooLarge
        else Except.ok (assembleBits c sign (exponent + 1) 0)
      else
        Except.ok (assembleBits c sign exponent
          (specRoundNearestEven (g * (fractionDenominator c : ℚ))).toNat) := by
  have hD0 : (0 : ℚ) < (fractionDenominator c : ℚ) := by
    rw [fractionDenominator_eq]
    positivity
  set x := g * (fractionDenominator c : ℚ) with hxdef
  have hx0 : 0 ≤ x := mul_nonneg hg0 (le_of_lt hD0)
  have hxlt : x < (fractionDenominator c : ℚ) := by
    calc x < 1 * (fractionDenominator c : ℚ) := by
          apply mul_lt_mul_of_pos_right hg1 hD0
      _ = (fractionDenominator c : ℚ) := one_mul _
  have hfl : ⌊x⌋ < (fractionDenominator c : Int) := by
    apply Int.floor_lt.mpr
    exact_mod_cast hxlt
  unfold fractionRound specRoundNearestEven
  simp only [ratTrunc]
  rw [if_pos hx0]
  by_cases hinc : 1/2 < x - (⌊x⌋ : ℚ) ∨ (x - (⌊x⌋ : ℚ) = 1/2 ∧ ⌊x⌋ % 2 = 1)
  · rw [if_pos hinc, if_pos hinc]
  · rw [if_neg hinc, if_neg hinc, if_neg (by omega)]

/-- `specRoundNearestEven` really is round-to-nearest with ties broken to
even: the rounded integer is within one half of the input, and at exact
halves it is even. -/
theorem specRoundNearestEven_nearest (x : ℚ) :
    |(specRoundNearestEven x : ℚ) - x| ≤ 1/2 ∧
      (|(specRoundNearestEven x : ℚ) - x| = 1/2 →
        specRoundNearestEven x % 2 = 0) := by
  have h0 : (⌊x⌋ : ℚ) ≤ x := Int.floor_le x
  have h1 : x < (⌊x⌋ : ℚ) + 1 := Int.lt_floor_add_one x
  unfold specRoundNearestEven
  by_cases hinc : 1/2 < x - (⌊x⌋ : ℚ) ∨ (x - (⌊x⌋ : ℚ) = 1/2 ∧ ⌊x⌋ % 2 = 1)
  · rw [if_pos hinc]
    have habs : |((⌊x⌋ + 1 : Int) : ℚ) - x| = (⌊x⌋ : ℚ) + 1 - x := by
      rw [abs_of_nonneg]
      · push_cast
        ring
      · push_cast
        linarith
    rcases hinc with hgt | ⟨heq, hodd⟩
    · constructor
      · rw [habs]
        linarith
      · intro hhalf
        rw [habs] at hhalf
        exfalso
        linarith [hhalf, hgt]
    · constructor
      · rw [habs]
        linarith
      · intro _
        omega
  · rw [if_neg hinc]
    push_neg at hinc
    obtain ⟨hle, htie⟩ := hinc
    have habs : |((⌊x⌋ : Int) : ℚ) - x| = x - (⌊x⌋ : ℚ) := by
      rw [abs_of_nonpos (by linarith)]
      ring
    constructor
    · rw [habs]
      linarith
    · intro hhalf
      rw [habs] at hhalf
      have := htie hhalf
      omega

end FloatCodec

namespace FloatCodec

/-- The finite (general-case) path of `FloatIO::pack`: for a normalized
input (`1 ≤ m < 2`) the `frexp` range check passes and the branch
structure reduces to the overflow check, the two underflow rescalings and
the normal-case bias-and-drop-leading-one, each feeding the rounding
tail. -/
theorem packBits_finite_eq (c : FloatCfg) (s : Bool) (m : ℚ) (e : Int)
    (hm1 : 1 ≤ m) (hm2 : m < 2) :
    packBits c (.finite s m e) =
      if exponentMax c < e then Except.error .tooLarge
      else if e < minValExponentNormalized c then
        fractionRound c (if s then 1 else 0) 0 0
      else if e < exponentMin c then
        fractionRound c (if s then 1 else 0)
          (m * 2 ^ (-(exponentMin c) + e)) 0
      else fractionRound c (if s then 1 else 0) (m - 1) (e + exponentBias c) := by
  simp only [packBits]
  rw [if_neg (show ¬ (m / 2 < 1/2 ∨ 1 ≤ m / 2) by
    push_neg
    constructor <;> linarith)]
  rw [show e + 1 - 1 = e from by ring, show m / 2 * 2 = m from by ring]
  by_cases h1 : exponentMax c < e
  · rw [if_pos h1, if_pos h1]
  · rw [if_neg h1, if_neg h1]
    by_cases h2 : e < minValExponentNormalized c
    · rw [if_pos h2, if_pos h2]
    · rw [if_neg h2, if_neg h2]
      by_cases h3 : e < exponentMin c
      · rw [if_pos h3, if_pos h3]
      · rw [if_neg h3, if_neg h3,
          if_pos (show ¬ (e = 0 ∧ m = 0) from fun h => by
            rw [h.2] at hm1
            norm_num at hm1)]

end FloatCodec

/-! ## Claim theorems: the float codec -/

/-- C3: for every finite nonzero input with normalized exponent exceeding
`exponent_max = bias`, `FloatIO::pack` fails with the overflow error and
produces no encoding (no clamp to infinity); the same error is also raised
when the round-up carry pushes the stored exponent into the all-ones
range, which happens exactly when the input sits at the top exponent with
its significand within half an ulp of 2. -/
theorem claim_C3 (c : FloatCfg) (hc : FloatCodec.Valid c) (s : Bool)
    (m : ℚ) (e : Int) (hm1 : 1 ≤ m) (hm2 : m < 2)
    (hover : FloatCodec.exponentMax c < e ∨
      (e = FloatCodec.exponentMax c ∧
        2 - ((1 : ℚ)/2) ^ (c.nBitsFraction + 1) ≤ m)) :
    FloatCodec.packBits c (.finite s m e) = .error .tooLarge := by
  rw [FloatCodec.packBits_finite_eq c s m e hm1 hm2]
  rcases hover with h | ⟨he, hmge⟩
  · rw [if_pos h]
  · subst he
    obtain ⟨hb1, hb2⟩ := FloatCodec.exponentBias_bounds c hc
    have hF1 : 1 ≤ c.nBitsFraction := hc.2.2
    have hF0 : (0 : Int) ≤ (c.nBitsFraction : Int) := by positivity
    have hminval : FloatCodec.minValExponentNormalized c
        = -FloatCodec.exponentBias c - c.nBitsFraction := by
      unfold FloatCodec.minValExponentNormalized FloatCodec.exponentMin
      ring
    have hmax : FloatCodec.exponentMax c = FloatCodec.exponentBias c := rfl
    rw [if_neg (lt_irrefl _), if_neg (by rw [hmax, hminval]; omega),
      if_neg (by rw [hmax]; unfold FloatCodec.exponentMin; omega)]
    rw [FloatCodec.fractionRound_eq c _ (m - 1) _ (by linarith) (by linarith)]
    have hDQ : ((FloatCodec.fractionDenominator c : Nat) : ℚ)
        = 2 ^ c.nBitsFraction := by
      rw [FloatCodec.fractionDenominator_eq]
      push_cast
      ring
    have hhalf : ((1 : ℚ)/2) ^ (c.nBitsFraction + 1) * 2 ^ c.nBitsFraction
        = 1/2 := by
      rw [div_pow, one_pow, pow_succ]
      have h2F : (0 : ℚ) < 2 ^ c.nBitsFraction := by positivity
      field_simp
    set x := (m - 1) * ((FloatCodec.fractionDenominator c : Nat) : ℚ) with hx
    have hD2 : (0 : ℚ) < 2 ^ c.nBitsFraction := by positivity
    have hxge : (2 : ℚ) ^ c.nBitsFraction - 1/2 ≤ x := by
      rw [hx, hDQ]
      have := mul_le_mul_of_nonneg_right
        (show 1 - ((1 : ℚ)/2) ^ (c.nBitsFraction + 1) ≤ m - 1 by linarith)
        (le_of_lt hD2)
      calc (2 : ℚ) ^ c.nBitsFraction - 1/2
          = (1 - ((1 : ℚ)/2) ^ (c.nBitsFraction + 1)) * 2 ^ c.nBitsFraction := by
            rw [sub_mul, one_mul, hhalf]
        _ ≤ (m - 1) * 2 ^ c.nBitsFraction := this
    have hxlt : x < (2 : ℚ) ^ c.nBitsFraction := by
      rw [hx, hDQ]
      calc (m - 1) * (2 : ℚ) ^ c.nBitsFraction
          < 1 * 2 ^ c.nBitsFraction := by
            apply mul_lt_mul_of_pos_right (by linarith) hD2
        _ = 2 ^ c.nBitsFraction := one_mul _
    have hDI : ((FloatCodec.fractionDenominator c : Nat) : Int)
        = 2 ^ c.nBitsFraction := by
      rw [FloatCodec.fractionDenominator_eq]
      push_cast
      ring
    have hfloor : ⌊x⌋ = (FloatCodec.fractionDenominator c : Int) - 1 := by
      rw [Int.floor_eq_iff]
      constructor
      · push_cast
        rw [hDQ]
        linarith
      · push_cast
        rw [hDQ]
        linarith
    have hspec : FloatCodec.specRoundNearestEven x
        = (FloatCodec.fractionDenominator c : Int) := by
      unfold FloatCodec.specRoundNearestEven
      rw [hfloor]
      have hodd : ((FloatCodec.fractionDenominator c : Int) - 1) % 2 = 1 := by
        rw [hDI]
        have hdvd : (2 : Int) ∣ 2 ^ c.nBitsFraction :=
          dvd_pow_self 2 (by omega : c.nBitsFraction ≠ 0)
        omega
      rw [if_pos ?_]
      · ring
      · have hge2 : ((1 : ℚ)/2) ≤ x - ((FloatCodec.fractionDenominator c : Int)
            - 1 : Int) := by
          push_cast
          rw [hDQ]
          linarith
        rcases lt_or_eq_of_le hge2 with hgt | heq
        · left
          linarith
        · right
          exact ⟨heq.symm, hodd⟩
    rw [if_pos hspec]
    rw [if_pos (show (FloatCodec.exponentMask c : Int)
        ≤ FloatCodec.exponentMax c + FloatCodec.exponentBias c + 1 by
      rw [hmax]
      omega)]

theorem claim_C3_witness :
    FloatCodec.Valid tinyFloatCfg ∧ (1 : ℚ) ≤ 15/8 ∧ (15/8 : ℚ) < 2 ∧
      FloatCodec.packBits tinyFloatCfg (.finite false (15/8) 3)
        = .error .tooLarge :=
  ⟨by decide, by norm_num, by norm_num,
    claim_C3 tinyFloatCfg (by decide) false (15/8) 3 (by norm_num) (by norm_num)
      (Or.inr ⟨by decide, by norm_num [tinyFloatCfg]⟩)⟩

/-- C4: the fraction extraction truncates `f' * fraction_denominator`,
increments exactly when the remainder exceeds one half or ties with an odd
truncation (this is round-to-nearest-even: the result is within half of
the input and even on exact ties), resets to zero with an exponent carry
when the increment reaches `fraction_denominator`, and fails with the
overflow error when the carried exponent reaches `EXPONENT_MASK`. -/
theorem claim_C4 (c : FloatCfg) (sign : Nat) (g : ℚ) (exponent : Int)
    (hg0 : 0 ≤ g) (hg1 : g < 1) :
    (FloatCodec.fractionRound c sign g exponent =
      if FloatCodec.specRoundNearestEven
          (g * (FloatCodec.fractionDenominator c : ℚ))
          = (FloatCodec.fractionDenominator c : Int) then
        if (FloatCodec.exponentMask c : Int) ≤ exponent + 1 then
          Except.error .tooLarge
        else Except.ok (FloatCodec.assembleBits c sign (exponent + 1) 0)
      else
        Except.ok (FloatCodec.assembleBits c sign exponent
          (FloatCodec.specRoundNearestEven
            (g * (FloatCodec.fractionDenominator c : ℚ))).toNat)) ∧
    (∀ x : ℚ, |(FloatCodec.specRoundNearestEven x : ℚ) - x| ≤ 1/2 ∧
      (|(FloatCodec.specRoundNearestEven x : ℚ) - x| = 1/2 →
        FloatCodec.specRoundNearestEven x % 2 = 0)) :=
  ⟨FloatCodec.fractionRound_eq c sign g exponent hg0 hg1,
    fun x => FloatCodec.specRoundNearestEven_nearest x⟩

theorem claim_C4_witness :
    FloatCodec.fractionRound tinyFloatCfg 0 (5/8) 2
      = Except.ok (FloatCodec.assembleBits tinyFloatCfg 0 2 2) := by
  have h := (claim_C4 tinyFloatCfg 0 (5/8) 2 (by norm_num) (by norm_num)).1
  rw [h]
  norm_num [FloatCodec.specRoundNearestEven, FloatCodec.fractionDenominator,
    FloatCodec.fractionMask, tinyFloatCfg]
  rfl

/-- C5: special values are classified before any decomposition and encode
as: infinities with all-ones exponent, zero fraction and the input's sign;
NaN with all-ones exponent, fraction `FRACTION_DENOMINATOR >> 1` and sign
0; zeros (negative zero distinguished by its sign, not by equality) with
zero exponent and fraction and the input's sign — so the encodings of
`+0.0` and `-0.0` differ exactly in the sign bit. -/
theorem claim_C5 (c : FloatCfg) (hc : FloatCodec.Valid c) (s : Bool) :
    (∃ b, FloatCodec.packBits c (.inf s) = Except.ok b ∧
      FloatCodec.expField c b = FloatCodec.exponentMask c ∧
      FloatCodec.fracField c b = 0 ∧
      FloatCodec.signField c b = (if s then 1 else 0)) ∧
    (∃ b, FloatCodec.packBits c .nan = Except.ok b ∧
      FloatCodec.expField c b = FloatCodec.exponentMask c ∧
      FloatCodec.fracField c b = FloatCodec.fractionDenominator c >>> 1 ∧
      FloatCodec.signField c b = 0) ∧
    (∃ b, FloatCodec.packBits c (.zero s) = Except.ok b ∧
      FloatCodec.expField c b = 0 ∧
      FloatCodec.fracField c b = 0 ∧
      FloatCodec.signField c b = (if s then 1 else 0)) ∧
    (∀ bp bn, FloatCodec.packBits c (.zero false) = Except.ok bp →
      FloatCodec.packBits c (.zero true) = Except.ok bn →
      ∀ k, (bp.testBit k ≠ bn.testBit k ↔
        k = c.nBitsExponent + c.nBitsFraction)) := by
  have hsle : (if s then 1 else 0 : Nat) ≤ 1 := by cases s <;> simp
  have hm0 : (0 : Int) ≤ (FloatCodec.exponentMask c : Int) := by positivity
  have hmaskN : (FloatCodec.exponentMask c : Int).toNat
      = FloatCodec.exponentMask c := Int.toNat_natCast _
  have hF1 : 1 ≤ c.nBitsFraction := hc.2.2
  have hfrac_lt : FloatCodec.fractionDenominator c >>> 1
      < 2 ^ c.nBitsFraction := by
    rw [FloatCodec.fractionDenominator_eq, Nat.shiftRight_eq_div_pow]
    have h1 : (0 : Nat) < 2 ^ c.nBitsFraction := by positivity
    have h2 : 2 ^ c.nBitsFraction / 2 ^ 1 ≤ 2 ^ c.nBitsFraction / 2 :=
      le_of_eq (by norm_num)
    have := Nat.div_lt_self h1 (by norm_num : 1 < 2)
    calc 2 ^ c.nBitsFraction / 2 ^ 1 = 2 ^ c.nBitsFraction / 2 := by norm_num
      _ < 2 ^ c.nBitsFraction := this
  refine ⟨⟨_, rfl, ?_, ?_, ?_⟩, ⟨_, rfl, ?_, ?_, ?_⟩, ⟨_, rfl, ?_, ?_, ?_⟩, ?_⟩
  · rw [FloatCodec.expField_assembleBits c hc _ hsle _ hm0 (le_refl _), hmaskN]
  · rw [FloatCodec.fracField_assembleBits c hc _ hsle _ hm0 (le_refl _),
      Nat.zero_and]
  · rw [FloatCodec.signField_assembleBits c hc _ hsle _ hm0 (le_refl _)]
  · rw [FloatCodec.expField_assembleBits c hc _ (by norm_num) _ hm0 (le_refl _),
      hmaskN]
  · rw [FloatCodec.fracField_assembleBits c hc _ (by norm_num) _ hm0
      (le_refl _)]
    unfold FloatCodec.fractionMask
    exact Nat.and_pow_two_sub_one_of_lt_two_pow hfrac_lt
  · rw [FloatCodec.signField_assembleBits c hc _ (by norm_num) _ hm0
      (le_refl _)]
  · rw [FloatCodec.expField_assembleBits c hc _ hsle 0 (le_refl 0) hm0]
    rfl
  · rw [FloatCodec.fracField_assembleBits c hc _ hsle 0 (le_refl 0) hm0,
      Nat.zero_and]
  · rw [FloatCodec.signField_assembleBits c hc _ hsle 0 (le_refl 0) hm0]
  · intro bp bn hbp hbn k
    have hbp' : FloatCodec.assembleBits c 0 0 0 = bp := Except.ok.inj hbp
    have hbn' : FloatCodec.assembleBits c 1 0 0 = bn := Except.ok.inj hbn
    have hzero : FloatCodec.assembleBits c 0 0 0 = 0 := by
      unfold FloatCodec.assembleBits
      simp
    have hone : FloatCodec.assembleBits c 1 0 0
        = 2 ^ (c.nBitsExponent + c.nBitsFraction) := by
      unfold FloatCodec.assembleBits
      simp [Nat.one_shiftLeft]
    rw [← hbp', ← hbn', hzero, hone, Nat.zero_testBit, Nat.testBit_two_pow]
    constructor
    · intro h
      by_contra hk
      rw [decide_eq_false (fun hh => hk hh.symm)] at h
      exact h rfl
    · intro h
      rw [decide_eq_true h.symm]
      exact fun hh => Bool.noConfusion hh

/-- Counterexample to the claim's literal wording: for the 6-bit preset
(3 exponent bits, 2 fraction bits) the value `15/8 * 2^(-3)` lies strictly
inside the gradual-underflow range, yet its encoding carries out of the
fraction and stores exponent field **1**, not 0. -/
theorem claim_C6_counterexample :
    FloatCodec.minValExponentNormalized tinyFloatCfg ≤ (-3 : Int) ∧
    (-3 : Int) < FloatCodec.exponentMin tinyFloatCfg ∧
    FloatCodec.packBits tinyFloatCfg (.finite false (15/8) (-3))
      = Except.ok 4 ∧
    FloatCodec.expField tinyFloatCfg 4 = 1 := by
  refine ⟨by decide, by decide, ?_, by decide⟩
  norm_num [FloatCodec.packBits, FloatCodec.fractionRound, FloatCodec.ratTrunc,
    FloatCodec.assembleBits, FloatCodec.exponentMask, FloatCodec.fractionMask,
    FloatCodec.fractionDenominator, FloatCodec.exponentBias,
    FloatCodec.exponentMax, FloatCodec.exponentMin,
    FloatCodec.minValExponentNormalized, tinyFloatCfg]
  rfl

/-- C6 (amended): a finite value `m * 2^e` (`1 ≤ m < 2`) with exponent
below `MIN_VAL_EXPONENT_NORMALIZED` is flushed to a signed zero, and one
with `MIN_VAL_EXPONENT_NORMALIZED ≤ e < EXPONENT_MIN` is encoded without
error and with its sign preserved, storing exponent field 0 and the
rounded `m * 2^(EXPONENT_MIN - e)`-scaled fraction — **except** when the
round-to-nearest-even carries the fraction up to `FRACTION_DENOMINATOR`,
in which case the result is the minimum normal magnitude: exponent field
1 and fraction field 0 (not exponent field 0 as the original claim
states). -/
theorem claim_C6 (c : FloatCfg) (hc : FloatCodec.Valid c) (s : Bool) (m : ℚ)
    (e : Int) (hm1 : 1 ≤ m) (hm2 : m < 2) :
    (e < FloatCodec.minValExponentNormalized c →
      ∃ b, FloatCodec.packBits c (.finite s m e) = Except.ok b ∧
        FloatCodec.expField c b = 0 ∧
        FloatCodec.fracField c b = 0 ∧
        FloatCodec.signField c b = (if s then 1 else 0)) ∧
    (FloatCodec.minValExponentNormalized c ≤ e →
      e < FloatCodec.exponentMin c →
      ∃ b, FloatCodec.packBits c (.finite s m e) = Except.ok b ∧
        FloatCodec.signField c b = (if s then 1 else 0) ∧
        (FloatCodec.specRoundNearestEven
            (m * 2 ^ (-(FloatCodec.exponentMin c) + e)
              * (FloatCodec.fractionDenominator c : ℚ))
            = (FloatCodec.fractionDenominator c : Int) →
          FloatCodec.expField c b = 1 ∧ FloatCodec.fracField c b = 0) ∧
        (FloatCodec.specRoundNearestEven
            (m * 2 ^ (-(FloatCodec.exponentMin c) + e)
              * (FloatCodec.fractionDenominator c : ℚ))
            ≠ (FloatCodec.fractionDenominator c : Int) →
          FloatCodec.expField c b = 0 ∧
          FloatCodec.fracField c b
            = (FloatCodec.specRoundNearestEven
                (m * 2 ^ (-(FloatCodec.exponentMin c) + e)
                  * (FloatCodec.fractionDenominator c : ℚ))).toNat)) := by
  obtain ⟨hb1, hb2⟩ := FloatCodec.exponentBias_bounds c hc
  have hF1 : 1 ≤ c.nBitsFraction := hc.2.2
  have hFI : (1 : Int) ≤ (c.nBitsFraction : Int) := by exact_mod_cast hF1
  have hsle : (if s then 1 else 0 : Nat) ≤ 1 := by cases s <;> simp
  have hminval : FloatCodec.minValExponentNormalized c
      = FloatCodec.exponentMin c - c.nBitsFraction - 1 := rfl
  have hemin : FloatCodec.exponentMin c = -FloatCodec.exponentBias c + 1 := rfl
  have hemax : FloatCodec.exponentMax c = FloatCodec.exponentBias c := rfl
  have hm0' : (0 : Int) ≤ (FloatCodec.exponentMask c : Int) := by positivity
  have hDnat : 2 ≤ FloatCodec.fractionDenominator c := by
    rw [FloatCodec.fractionDenominator_eq]
    calc 2 = 2 ^ 1 := rfl
      _ ≤ 2 ^ c.nBitsFraction := Nat.pow_le_pow_right (by norm_num) hF1
  have hDI : (2 : Int) ≤ (FloatCodec.fractionDenominator c : Int) := by
    exact_mod_cast hDnat
  rw [FloatCodec.packBits_finite_eq c s m e hm1 hm2]
  constructor
  · intro h
    have hnot : ¬ FloatCodec.exponentMax c < e := by omega
    rw [if_neg hnot, if_pos h]
    rw [FloatCodec.fractionRound_eq c _ 0 0 (le_refl 0) (by norm_num)]
    have hzero : FloatCodec.specRoundNearestEven
        ((0 : ℚ) * (FloatCodec.fractionDenominator c : ℚ)) = 0 := by
      rw [zero_mul]
      unfold FloatCodec.specRoundNearestEven
      norm_num
    rw [hzero, if_neg (show ¬ (0 : Int)
        = (FloatCodec.fractionDenominator c : Int) by omega)]
    refine ⟨_, rfl, ?_, ?_, ?_⟩
    · rw [FloatCodec.expField_assembleBits c hc _ hsle 0 (le_refl 0) hm0']
      rfl
    · rw [FloatCodec.fracField_assembleBits c hc _ hsle 0 (le_refl 0) hm0']
      rw [show ((0 : Int).toNat = 0) from rfl, Nat.zero_and]
    · rw [FloatCodec.signField_assembleBits c hc _ hsle 0 (le_refl 0) hm0']
  · intro h1 h2
    have hnot : ¬ FloatCodec.exponentMax c < e := by omega
    rw [if_neg hnot, if_neg (show ¬ e < FloatCodec.minValExponentNormalized c
      from not_lt.mpr h1), if_pos h2]
    set g := m * 2 ^ (-(FloatCodec.exponentMin c) + e) with hgdef
    have ht0 : (0 : ℚ) < 2 ^ (-(FloatCodec.exponentMin c) + e) :=
      zpow_pos (by norm_num) _
    have htle : (2 : ℚ) ^ (-(FloatCodec.exponentMin c) + e)
        ≤ 2 ^ (-1 : Int) :=
      zpow_le_zpow_right₀ (by norm_num) (by omega)
    have hhalf : (2 : ℚ) ^ (-1 : Int) = 1/2 := by norm_num
    have hg0 : 0 ≤ g := mul_nonneg (by linarith) (le_of_lt ht0)
    have hg1 : g < 1 := by
      have h3 : g < 2 * 2 ^ (-(FloatCodec.exponentMin c) + e) :=
        mul_lt_mul_of_pos_right hm2 ht0
      rw [hhalf] at htle
      linarith
    rw [FloatCodec.fractionRound_eq c _ g 0 hg0 hg1]
    set r := FloatCodec.specRoundNearestEven
      (g * (FloatCodec.fractionDenominator c : ℚ)) with hrdef
    by_cases hr : r = (FloatCodec.fractionDenominator c : Int)
    · rw [if_pos hr, if_neg (show ¬ (FloatCodec.exponentMask c : Int) ≤ 0 + 1
        by omega)]
      refine ⟨_, rfl, ?_, fun _ => ⟨?_, ?_⟩, fun hcontra => absurd hr hcontra⟩
      · rw [FloatCodec.signField_assembleBits c hc _ hsle (0 + 1)
          (by norm_num) (by omega)]
      · rw [FloatCodec.expField_assembleBits c hc _ hsle (0 + 1)
          (by norm_num) (by omega)]
        rfl
      · rw [FloatCodec.fracField_assembleBits c hc _ hsle (0 + 1)
          (by norm_num) (by omega), Nat.zero_and]
    · rw [if_neg hr]
      have hr0 : 0 ≤ r := FloatCodec.specRoundNearestEven_nonneg _
        (mul_nonneg hg0 (by positivity))
      have hrD : r ≤ (FloatCodec.fractionDenominator c : Int) := by
        apply FloatCodec.specRoundNearestEven_le
        calc g * (FloatCodec.fractionDenominator c : ℚ)
            < 1 * (FloatCodec.fractionDenominator c : ℚ) := by
              apply mul_lt_mul_of_pos_right hg1
              have : (2 : ℚ) ≤ (FloatCodec.fractionDenominator c : ℚ) := by
                exact_mod_cast hDnat
              linarith
          _ = (FloatCodec.fractionDenominator c : ℚ) := one_mul _
      have hrlt : r < (FloatCodec.fractionDenominator c : Int) :=
        lt_of_le_of_ne hrD hr
      have hrtoNat : r.toNat < 2 ^ c.nBitsFraction := by
        have hcast : ((2 ^ c.nBitsFraction : Nat) : Int)
            = 2 ^ c.nBitsFraction := by push_cast; ring
        rw [FloatCodec.fractionDenominator_eq] at hrlt
        omega
      refine ⟨_, rfl, ?_, fun hcontra => absurd hcontra hr,
        fun _ => ⟨?_, ?_⟩⟩
      · rw [FloatCodec.signField_assembleBits c hc _ hsle 0 (le_refl 0) hm0']
      · rw [FloatCodec.expField_assembleBits c hc _ hsle 0 (le_refl 0) hm0']
        rfl
      · rw [FloatCodec.fracField_assembleBits c hc _ hsle 0 (le_refl 0) hm0']
        unfold FloatCodec.fractionMask
        exact Nat.and_pow_two_sub_one_of_lt_two_pow hrtoNat

theorem claim_C6_witness :
    ∃ b, FloatCodec.packBits tinyFloatCfg (.finite false (15/8) (-3))
        = Except.ok b ∧
      FloatCodec.signField tinyFloatCfg b = 0 ∧
      FloatCodec.expField tinyFloatCfg b = 1 ∧
      FloatCodec.fracField tinyFloatCfg b = 0 := by
  obtain ⟨b, hb, hs, hcarry, -⟩ :=
    (claim_C6 tinyFloatCfg (by decide) false (15/8) (-3) (by norm_num)
      (by norm_num)).2 (by decide) (by decide)
  have hcond : FloatCodec.specRoundNearestEven
      ((15/8 : ℚ) * 2 ^ (-(FloatCodec.exponentMin tinyFloatCfg) + (-3))
        * (FloatCodec.fractionDenominator tinyFloatCfg : ℚ))
      = (FloatCodec.fractionDenominator tinyFloatCfg : Int) := by
    norm_num [FloatCodec.specRoundNearestEven, FloatCodec.fractionDenominator,
      FloatCodec.fractionMask, FloatCodec.exponentMin, FloatCodec.exponentBias,
      tinyFloatCfg]
  obtain ⟨he, hf⟩ := hcarry hcond
  exact ⟨b, hb, hs, he, hf⟩

theorem claim_C5_witness :
    FloatCodec.Valid tinyFloatCfg ∧
    ∃ b, FloatCodec.packBits tinyFloatCfg (.inf true) = Except.ok b ∧
      FloatCodec.expField tinyFloatCfg b
        = FloatCodec.exponentMask tinyFloatCfg ∧
      FloatCodec.fracField tinyFloatCfg b = 0 ∧
      FloatCodec.signField tinyFloatCfg b = 1 := by
  refine ⟨by decide, ?_⟩
  obtain ⟨⟨b, hb, he, hf, hs⟩, -, -, -⟩ := claim_C5 tinyFloatCfg (by decide) true
  exact ⟨b, hb, he, hf, hs⟩
